import Mathlib

/-!
Shallow embedding of the range-reconciliation core of the lotto-erp-web
repository (returnTransformer.ts, erpTransformer.ts / part_008, dealerConfig
/ part_006, availability-segment construction / part_007), together with
proofs settling the frozen claims C1..C10.

Modelling conventions:
* JavaScript numbers that can be `NaN` are modelled by `J := Option Int`
  (`none` = NaN); all arithmetic and comparisons propagate `NaN` exactly as
  IEEE comparisons do (every comparison with `NaN` is false).
* Spreadsheet cells are `string | number | null`; numeric cells are modelled
  as integers (the code truncates cell numbers with `Math.trunc` before use).
* `Array.prototype.sort` is stable; it is modelled by a stable insertion
  sort (`jsSort`), which agrees with any stable sort for the total-preorder
  comparators used by the source (`(a, b) => a.x - b.x`).
* `String#trim`, `padStart`, `slice`, `replace(/[^\d]/g, "")` and friends
  are modelled explicitly on character lists.
* `Number(string)` is modelled for integer-valued strings (optional sign,
  decimal digits, surrounding whitespace); other inputs (fractional,
  scientific, hex forms) are conservatively mapped to NaN.  No claim
  exercises those forms.
-/

/-! ## Basic JS value modelling -/

/-- A JS number that may be `NaN`: `some n` is a finite integer, `none` is NaN. -/
abbrev J := Option Int

def jLt : J → J → Bool
  | some a, some b => a < b
  | _, _ => false

def jGt (a b : J) : Bool := jLt b a

def jLe : J → J → Bool
  | some a, some b => a ≤ b
  | _, _ => false

def jAdd : J → J → J
  | some a, some b => some (a + b)
  | _, _ => none

def jSub : J → J → J
  | some a, some b => some (a - b)
  | _, _ => none

/-- JS falsiness of a number: `0` and `NaN` are falsy. -/
def jFalsy : J → Bool
  | none => true
  | some n => n = 0

/-- A spreadsheet cell: `string | number | null`. -/
inductive Cell where
  | str (s : String)
  | num (n : Int)
  | null
deriving DecidableEq, Repr

/-! ## Stable sort (model of Array.prototype.sort) -/

def jsInsert (le : α → α → Bool) (a : α) : List α → List α
  | [] => [a]
  | b :: l => if le b a && !(le a b) then b :: jsInsert le a l else a :: b :: l

/-- Stable insertion sort; models the (stable) JS `Array#sort` with a
total-preorder comparator. -/
def jsSort (le : α → α → Bool) : List α → List α
  | [] => []
  | a :: l => jsInsert le a (jsSort le l)

theorem mem_jsInsert {le : α → α → Bool} {a x : α} {l : List α} :
    x ∈ jsInsert le a l ↔ x = a ∨ x ∈ l := by
  induction l with
  | nil => simp [jsInsert]
  | cons b t ih =>
    by_cases h : (le b a && !(le a b)) = true
    · simp only [jsInsert, if_pos h, List.mem_cons, ih]
      tauto
    · simp only [jsInsert, if_neg h, List.mem_cons]

theorem mem_jsSort {le : α → α → Bool} {x : α} {l : List α} :
    x ∈ jsSort le l ↔ x ∈ l := by
  induction l with
  | nil => simp [jsSort]
  | cons a t ih => simp [jsSort, mem_jsInsert, ih]

theorem jsInsert_pairwise {le : α → α → Bool}
    (htrans : ∀ a b c, le a b = true → le b c = true → le a c = true)
    (htotal : ∀ a b, le a b = true ∨ le b a = true)
    {a : α} {l : List α} (h : l.Pairwise (fun u v => le u v = true)) :
    (jsInsert le a l).Pairwise (fun u v => le u v = true) := by
  induction l with
  | nil => simp [jsInsert]
  | cons b t ih =>
    rcases h with _ | ⟨hb, ht⟩
    by_cases hc : (le b a && !(le a b)) = true
    · have hba : le b a = true := by
        have := hc; simp [Bool.and_eq_true] at this; exact this.1
      simp only [jsInsert, if_pos hc]
      refine List.Pairwise.cons ?_ (ih ht)
      intro y hy
      rcases mem_jsInsert.1 hy with rfl | hyt
      · exact hba
      · exact hb y hyt
    · have hab : le a b = true := by
        rcases htotal a b with h1 | h1
        · exact h1
        · simp [Bool.and_eq_true, h1] at hc
          simpa using hc
      simp only [jsInsert, if_neg hc]
      refine List.Pairwise.cons ?_ (List.Pairwise.cons hb ht)
      intro y hy
      rcases List.mem_cons.1 hy with rfl | hyt
      · exact hab
      · exact htrans a b y hab (hb y hyt)

theorem jsSort_pairwise {le : α → α → Bool}
    (htrans : ∀ a b c, le a b = true → le b c = true → le a c = true)
    (htotal : ∀ a b, le a b = true ∨ le b a = true) (l : List α) :
    (jsSort le l).Pairwise (fun u v => le u v = true) := by
  induction l with
  | nil => simp [jsSort]
  | cons a t ih => exact jsInsert_pairwise htrans htotal ih

/-! ## Characters, digit strings, numerals -/

/-- The character class `\d` of the source regexes. -/
def isDigitB (c : Char) : Bool :=
  decide (c = '0' ∨ c = '1' ∨ c = '2' ∨ c = '3' ∨ c = '4' ∨ c = '5' ∨ c = '6' ∨
    c = '7' ∨ c = '8' ∨ c = '9')

/-- Whitespace trimmed by `String#trim`. -/
def jsWs (c : Char) : Bool := decide (c = ' ' ∨ c = '\t' ∨ c = '\n' ∨ c = '\r')

def jsTrimList (l : List Char) : List Char :=
  ((l.dropWhile jsWs).reverse.dropWhile jsWs).reverse

def jsTrim (s : String) : String := ⟨jsTrimList s.toList⟩

/-- Model of `raw.replace(/[^\d]/g, "")` : keep only digits. -/
def jsFilterDigits (s : String) : String := ⟨s.toList.filter isDigitB⟩

def jsPadStartList (l : List Char) (n : Nat) (c : Char) : List Char :=
  List.replicate (n - l.length) c ++ l

/-- Model of `s.padStart(n, c)`. -/
def jsPadStart (s : String) (n : Nat) (c : Char) : String :=
  ⟨jsPadStartList s.toList n c⟩

def jsSliceLastList (l : List Char) (n : Nat) : List Char :=
  l.drop (l.length - n)

/-- Model of `s.slice(-n)` for `n ≥ 1`. -/
def jsSliceLast (s : String) (n : Nat) : String := ⟨jsSliceLastList s.toList n⟩

/-- Model of `s.slice(n)` for `n ≥ 0`. -/
def jsSliceFrom (s : String) (n : Nat) : String := ⟨s.toList.drop n⟩

def strLen (s : String) : Nat := s.toList.length

/-- Tests whether `pat` occurs as a contiguous substring of `l` (JS `String#includes`). -/
def listContainsSeq [DecidableEq α] (pat : List α) : List α → Bool
  | [] => decide (pat = [])
  | a :: t => decide (pat = (a :: t).take pat.length) || listContainsSeq pat t

def strIncludes (s pat : String) : Bool := listContainsSeq pat.toList s.toList

/-- Replace the first occurrence of `pat` in `l` by nothing
(JS `s.replace(pat, "")` with a plain-string pattern). -/
def listDropFirstSeq [DecidableEq α] (pat : List α) : List α → List α
  | [] => []
  | a :: t =>
    if pat = (a :: t).take pat.length then (a :: t).drop pat.length
    else a :: listDropFirstSeq pat t

def strDropFirst (s pat : String) : String := ⟨listDropFirstSeq pat.toList s.toList⟩

def digitChar : Nat → Char
  | 0 => '0' | 1 => '1' | 2 => '2' | 3 => '3' | 4 => '4'
  | 5 => '5' | 6 => '6' | 7 => '7' | 8 => '8' | _ => '9'

def digitVal (c : Char) : Nat := c.toNat - 48

/-- Decimal digits of `n`, least-significant first, with explicit fuel
(structural recursion so the kernel can evaluate it). -/
def natToRevDigits : Nat → Nat → List Char
  | 0, _ => []
  | fuel + 1, n => if n < 10 then [digitChar n] else digitChar (n % 10) :: natToRevDigits fuel (n / 10)

def natDigits (n : Nat) : List Char := (natToRevDigits (n + 1) n).reverse

/-- Decimal representation of a nonnegative integer (JS `String(n)` for `n ≥ 0`). -/
def natStr (n : Nat) : String := ⟨natDigits n⟩

/-- JS `String(n)` for an integer. -/
def jsStringOfInt (n : Int) : String :=
  if n < 0 then ⟨'-' :: natDigits n.natAbs⟩ else natStr n.toNat

/-- JS `String(x)` for a number that may be `NaN`. -/
def jsStringOfJ : J → String
  | some n => jsStringOfInt n
  | none => "NaN"

def allDigits (l : List Char) : Bool := l.all isDigitB

/-- Value of a forward list of decimal digits. -/
def digitsValList (l : List Char) : Nat :=
  l.foldl (fun acc c => acc * 10 + digitVal c) 0

/-- Model of `Number(s)` on a string of digits and minus signs (the cleaned strings the
source feeds to `Number`): optional single leading sign, then digits. -/
def parseSignedDigits (l : List Char) : Option Int :=
  match l with
  | [] => none
  | c :: rest =>
    if c = '-' then
      if rest ≠ [] && allDigits rest then some (-(digitsValList rest : Int)) else none
    else if allDigits (c :: rest) then some ((digitsValList (c :: rest) : Int)) else none

/-- Model of `Number(s)` for a general string, restricted to integer-valued inputs;
whitespace-only input is 0, anything non-integral is NaN. -/
def jsNumberStr (s : String) : J :=
  let t := jsTrimList s.toList
  if t = [] then some 0 else parseSignedDigits t

/-! ## Numeral lemmas -/

theorem digitVal_digitChar {d : Nat} (h : d < 10) : digitVal (digitChar d) = d := by
  interval_cases d <;> rfl

theorem isDigitB_digitChar (d : Nat) : isDigitB (digitChar d) = true := by
  rcases Nat.lt_or_ge d 10 with h | h
  · interval_cases d <;> rfl
  · have hd : digitChar d = '9' := by
      unfold digitChar
      rcases d with _|_|_|_|_|_|_|_|_|d <;> first | omega | rfl
    rw [hd]; rfl

/-- Value of a reversed (LSB-first) digit list. -/
def revVal : List Char → Nat
  | [] => 0
  | c :: t => digitVal c + 10 * revVal t

theorem natToRevDigits_val {fuel : Nat} :
    ∀ {n : Nat}, n < 10 ^ fuel → revVal (natToRevDigits fuel n) = n := by
  induction fuel with
  | zero =>
    intro n h
    simp only [pow_zero] at h
    simp only [natToRevDigits, revVal]
    omega
  | succ f ih =>
    intro n h
    by_cases h10 : n < 10
    · simp [natToRevDigits, h10, revVal, digitVal_digitChar h10]
    · have hdiv : n / 10 < 10 ^ f := by
        rw [pow_succ] at h
        exact Nat.div_lt_of_lt_mul (by omega)
      simp only [natToRevDigits, if_neg h10, revVal, ih hdiv,
        digitVal_digitChar (Nat.mod_lt n (by omega))]
      omega

theorem natToRevDigits_digits {fuel n : Nat} :
    ∀ c ∈ natToRevDigits fuel n, isDigitB c = true := by
  induction fuel generalizing n with
  | zero => simp [natToRevDigits]
  | succ f ih =>
    intro c hc
    by_cases h10 : n < 10
    · simp [natToRevDigits, h10] at hc
      simp [hc, isDigitB_digitChar]
    · simp only [natToRevDigits, if_neg h10, List.mem_cons] at hc
      rcases hc with rfl | hc
      · exact isDigitB_digitChar _
      · exact ih c hc

theorem natToRevDigits_ne_nil {fuel n : Nat} (h : 0 < fuel) :
    natToRevDigits fuel n ≠ [] := by
  cases fuel with
  | zero => omega
  | succ f =>
    by_cases h10 : n < 10 <;> simp [natToRevDigits, h10]

theorem natDigits_digits {n : Nat} : ∀ c ∈ natDigits n, isDigitB c = true := by
  intro c hc
  exact natToRevDigits_digits c (List.mem_reverse.1 hc)

theorem natDigits_ne_nil (n : Nat) : natDigits n ≠ [] := by
  unfold natDigits
  intro h
  exact natToRevDigits_ne_nil (Nat.succ_pos n) (by simpa using h)

theorem foldl_digits_reverse (revl : List Char) :
    ∀ acc : Nat,
      List.foldl (fun acc c => acc * 10 + digitVal c) acc revl.reverse =
        acc * 10 ^ revl.length + revVal revl := by
  induction revl with
  | nil => intro acc; simp [revVal]
  | cons c t ih =>
    intro acc
    simp only [List.reverse_cons, List.foldl_append, List.foldl_cons, List.foldl_nil,
      ih acc, revVal, List.length_cons, pow_succ]
    ring

theorem digitsValList_natDigits (n : Nat) : digitsValList (natDigits n) = n := by
  have hlt : n < 10 ^ (n + 1) := by
    have h2 : n + 1 < 2 ^ (n + 1) := Nat.lt_two_pow (n + 1)
    have h10 : 2 ^ (n + 1) ≤ 10 ^ (n + 1) := Nat.pow_le_pow_left (by omega) _
    omega
  unfold digitsValList natDigits
  rw [foldl_digits_reverse, natToRevDigits_val hlt]
  simp

theorem digitsValList_append_zeros (k : Nat) (l : List Char) :
    digitsValList (List.replicate k '0' ++ l) = digitsValList l := by
  induction k with
  | zero => simp
  | succ m ih =>
    simpa [digitsValList, List.replicate_succ, digitVal] using ih

/-! ## Trim / digit-shape lemmas -/

theorem not_ws_of_digit {c : Char} (h : isDigitB c = true) : jsWs c = false := by
  simp only [isDigitB, decide_eq_true_eq] at h
  rcases h with h | h | h | h | h | h | h | h | h | h <;> subst h <;> rfl

theorem mem_of_head?_eq {l : List Char} {c : Char} (h : l.head? = some c) : c ∈ l := by
  cases l with
  | nil => simp at h
  | cons a t =>
    simp only [List.head?_cons, Option.some.injEq] at h
    subst h
    simp

theorem dropWhile_eq_self_of_head {p : Char → Bool} {l : List Char}
    (h : ∀ c, l.head? = some c → p c = false) : l.dropWhile p = l := by
  cases l with
  | nil => rfl
  | cons a t =>
    have := h a rfl
    simp [List.dropWhile, this]

theorem jsTrimList_eq_self {l : List Char} (h : ∀ c ∈ l, jsWs c = false) :
    jsTrimList l = l := by
  unfold jsTrimList
  have h1 : l.dropWhile jsWs = l :=
    dropWhile_eq_self_of_head (fun c hc => h c (mem_of_head?_eq hc))
  rw [h1]
  have h2 : l.reverse.dropWhile jsWs = l.reverse :=
    dropWhile_eq_self_of_head (fun c hc => h c (List.mem_reverse.1 (mem_of_head?_eq hc)))
  rw [h2, List.reverse_reverse]

theorem jsTrimList_digits {l : List Char} (h : allDigits l = true) :
    jsTrimList l = l := by
  apply jsTrimList_eq_self
  intro c hc
  exact not_ws_of_digit (by simpa using (List.all_eq_true.1 h c hc))

/-- Evaluating `Number` on a nonempty all-digit string returns its value. -/
theorem jsNumberStr_digits {l : List Char} (hne : l ≠ []) (hd : allDigits l = true) :
    jsNumberStr ⟨l⟩ = some ((digitsValList l : Int)) := by
  unfold jsNumberStr
  simp only [String.toList]
  rw [jsTrimList_digits hd, if_neg hne]
  cases l with
  | nil => exact absurd rfl hne
  | cons c t =>
    have hc : isDigitB c = true := by simpa using (List.all_eq_true.1 hd c (by simp))
    have hcne : ¬(c = '-') := by
      intro h; subst h; simp [isDigitB] at hc
    simp [parseSignedDigits, hcne, hd]

/-! ## returnTransformer.ts (variant 1): interval subtraction -/

/-- Inclusive numeric range; source fields `from` / `to` (Lean keywords),
renamed `lo` / `hi`.  Endpoints are JS numbers (possibly NaN). -/
structure NumRange where
  lo : J
  hi : J
deriving DecidableEq, Repr

/-- Model of `overlaps(a, b) = !(b.to < a.from || b.from > a.to)`. -/
def overlaps (a b : NumRange) : Bool :=
  !(jLt b.hi a.lo || jGt b.lo a.hi)

/-- Processing of one remaining segment `r` against one exclusion `e`
(the body of the inner loop of `subtractRanges`). -/
def cutOne (e r : NumRange) : List NumRange :=
  if !(overlaps r e) then [r]
  else
    (if jGt e.lo r.lo then [⟨r.lo, jSub e.lo (some 1)⟩] else []) ++
    (if jLt e.hi r.hi then [⟨jAdd e.hi (some 1), r.hi⟩] else [])

/-- Comparator `(a, b) => a.from - b.from` as a `sort` relation
(a NaN comparator value is treated as 0, i.e. "equal"). -/
def leLo (a b : NumRange) : Bool :=
  match a.lo, b.lo with
  | some x, some y => x ≤ y
  | _, _ => true

/-- Model of `subtractRanges(base, excludes)`: subtract the exclusion ranges from the
base range, returning the remaining segments. -/
def subtractRanges (base : NumRange) (excludes : List NumRange) : List NumRange :=
  let ex := jsSort leLo (excludes.filter (fun e => overlaps base e))
  ex.foldl (fun remaining e => remaining.flatMap (fun r => cutOne e r)) [base]

/-! ### Invariants of `subtractRanges` -/

/-- Proper finite segment within `[f, t]`. -/
def SegIn (f t : Int) (s : NumRange) : Prop :=
  ∃ sl sh : Int, s = ⟨some sl, some sh⟩ ∧ f ≤ sl ∧ sl ≤ sh ∧ sh ≤ t

/-- Disjointness of two ranges, as the negation of the source `overlaps`. -/
def Disj (a b : NumRange) : Prop := overlaps a b = false

theorem overlaps_finite_iff {al ah bl bh : Int} :
    overlaps ⟨some al, some ah⟩ ⟨some bl, some bh⟩ = true ↔ (al ≤ bh ∧ bl ≤ ah) := by
  simp only [overlaps, jLt, jGt, Bool.not_eq_true', Bool.or_eq_false_iff,
    decide_eq_false_iff_not, not_lt]
  try omega

theorem overlaps_finite_false_iff {al ah bl bh : Int} :
    overlaps ⟨some al, some ah⟩ ⟨some bl, some bh⟩ = false ↔ (bh < al ∨ ah < bl) := by
  rw [← Bool.not_eq_true, overlaps_finite_iff]
  omega

/-- If one side of `Disj` is a finite proper range, the other side has a
finite witness endpoint strictly outside it. -/
theorem disj_finite_elim {rl rh : Int} {x : NumRange}
    (hd : Disj ⟨some rl, some rh⟩ x) :
    (∃ xh, x.hi = some xh ∧ xh < rl) ∨ (∃ xl, x.lo = some xl ∧ rh < xl) := by
  unfold Disj overlaps at hd
  simp only [Bool.not_eq_false', Bool.or_eq_true] at hd
  rcases hd with h | h
  · left
    cases hx : x.hi with
    | none => rw [hx] at h; simp [jLt] at h
    | some xh =>
      rw [hx] at h
      simp only [jLt, decide_eq_true_eq] at h
      exact ⟨xh, rfl, h⟩
  · right
    cases hx : x.lo with
    | none => rw [hx] at h; simp [jGt, jLt] at h
    | some xl =>
      rw [hx] at h
      simp only [jGt, jLt, decide_eq_true_eq] at h
      exact ⟨xl, rfl, h⟩

theorem disj_of_finite {sl sh : Int} {x : NumRange}
    (h : (∃ xh, x.hi = some xh ∧ xh < sl) ∨ (∃ xl, x.lo = some xl ∧ sh < xl)) :
    Disj ⟨some sl, some sh⟩ x := by
  unfold Disj overlaps
  simp only [Bool.not_eq_false', Bool.or_eq_true]
  rcases h with ⟨xh, hx, hlt⟩ | ⟨xl, hx, hlt⟩
  · left; rw [hx]; simp [jLt, hlt]
  · right; rw [hx]; simp [jGt, jLt, hlt]

theorem cutOne_spec {el eh rl rh : Int} (he : el ≤ eh) {s : NumRange}
    (h : s ∈ cutOne ⟨some el, some eh⟩ ⟨some rl, some rh⟩) :
    ∃ sl sh : Int, s = ⟨some sl, some sh⟩ ∧ rl ≤ sl ∧ sh ≤ rh ∧
      (rl ≤ rh → sl ≤ sh) ∧ (sh < el ∨ eh < sl) := by
  unfold cutOne at h
  by_cases hov : overlaps ⟨some rl, some rh⟩ ⟨some el, some eh⟩ = true
  · have hov' : rl ≤ eh ∧ el ≤ rh := overlaps_finite_iff.1 hov
    simp only [hov, Bool.not_true, Bool.false_eq_true, if_false, List.mem_append] at h
    rcases h with h | h
    · by_cases hg : jGt (some el) (some rl) = true
      · simp only [hg, if_true, List.mem_singleton] at h
        subst h
        have hlt : rl < el := by simpa [jGt, jLt] using hg
        exact ⟨rl, el - 1, by simp [jSub], le_refl _, by omega, fun _ => by omega, by omega⟩
      · simp [hg] at h
    · by_cases hl : jLt (some eh) (some rh) = true
      · simp only [hl, if_true, List.mem_singleton] at h
        subst h
        have hlt : eh < rh := by simpa [jLt] using hl
        exact ⟨eh + 1, rh, by simp [jAdd], by omega, le_refl _, fun _ => by omega, by omega⟩
      · simp [hl] at h
  · simp only [Bool.not_eq_true] at hov
    simp only [hov, Bool.not_false, if_true, List.mem_singleton] at h
    subst h
    have := overlaps_finite_false_iff.1 hov
    exact ⟨rl, rh, rfl, le_refl _, le_refl _, fun h => h, by omega⟩

/-- Cutting shrinks segments, so disjointness from anything is preserved. -/
theorem cutOne_disj {el eh rl rh : Int} {s x : NumRange} (he : el ≤ eh)
    (hd : Disj ⟨some rl, some rh⟩ x)
    (h : s ∈ cutOne ⟨some el, some eh⟩ ⟨some rl, some rh⟩) :
    Disj s x := by
  obtain ⟨sl, sh, rfl, h1, h2, _, _⟩ := cutOne_spec he h
  rcases disj_finite_elim hd with ⟨xh, hx, hlt⟩ | ⟨xl, hx, hlt⟩
  · exact disj_of_finite (Or.inl ⟨xh, hx, by omega⟩)
  · exact disj_of_finite (Or.inr ⟨xl, hx, by omega⟩)

/-- The two cut pieces of one segment are pairwise disjoint. -/
theorem cutOne_pairwise {el eh rl rh : Int} (he : el ≤ eh) :
    (cutOne ⟨some el, some eh⟩ ⟨some rl, some rh⟩).Pairwise Disj := by
  unfold cutOne
  by_cases hov : overlaps ⟨some rl, some rh⟩ ⟨some el, some eh⟩ = true
  · simp only [hov, Bool.not_true, Bool.false_eq_true, if_false]
    by_cases hg : jGt (some el) (some rl) = true <;>
      by_cases hl : jLt (some eh) (some rh) = true <;>
        simp only [hg, hl, if_true, if_false, List.nil_append, List.append_nil,
          List.singleton_append]
    · refine List.Pairwise.cons ?_ (List.pairwise_singleton _ _)
      intro y hy
      rcases List.mem_singleton.1 hy with rfl
      exact disj_of_finite (Or.inr ⟨eh + 1, by simp [jAdd], by omega⟩)
    · exact List.pairwise_singleton _ _
    · exact List.pairwise_singleton _ _
    · exact List.Pairwise.nil
  · simp only [Bool.not_eq_true] at hov
    simp only [hov, Bool.not_false, if_true]
    exact List.pairwise_singleton _ _

theorem pairwise_flatMap {R : β → β → Prop} {f : α → List β} {l : List α}
    (h1 : ∀ a ∈ l, (f a).Pairwise R)
    (h2 : l.Pairwise (fun a b => ∀ x ∈ f a, ∀ y ∈ f b, R x y)) :
    (l.flatMap f).Pairwise R := by
  induction l with
  | nil => simp
  | cons a t ih =>
    rcases h2 with _ | ⟨ha, ht⟩
    simp only [List.flatMap_cons]
    rw [List.pairwise_append]
    refine ⟨h1 a (by simp), ih (fun b hb => h1 b (by simp [hb])) ht, ?_⟩
    intro x hx y hy
    obtain ⟨b, hb, hyb⟩ := List.mem_flatMap.1 hy
    exact ha b hb x hx y hyb

theorem flatMap_eq_self {l : List α} {g : α → List α} (h : ∀ x ∈ l, g x = [x]) :
    l.flatMap g = l := by
  induction l with
  | nil => rfl
  | cons a t ih =>
    rw [List.flatMap_cons, h a (by simp), List.singleton_append,
      ih (fun x hx => h x (by simp [hx]))]

/-- One pass of the exclusion loop preserves the segment invariants and makes
every surviving segment disjoint from the processed exclusion. -/
theorem step_inv {f t el eh : Int} (hee : el ≤ eh) {rem : List NumRange}
    (hin : ∀ s ∈ rem, SegIn f t s) (hpw : rem.Pairwise Disj) :
    (∀ s ∈ rem.flatMap (fun r => cutOne ⟨some el, some eh⟩ r), SegIn f t s) ∧
    (rem.flatMap (fun r => cutOne ⟨some el, some eh⟩ r)).Pairwise Disj ∧
    (∀ s ∈ rem.flatMap (fun r => cutOne ⟨some el, some eh⟩ r), Disj s ⟨some el, some eh⟩) ∧
    (∀ x : NumRange, (∀ s ∈ rem, Disj s x) →
      ∀ s ∈ rem.flatMap (fun r => cutOne ⟨some el, some eh⟩ r), Disj s x) := by
  refine ⟨?_, ?_, ?_, ?_⟩
  · intro s hs
    obtain ⟨r, hr, hsr⟩ := List.mem_flatMap.1 hs
    obtain ⟨rl, rh, rfl, hfr, hrr, hrt⟩ := hin r hr
    obtain ⟨sl, sh, rfl, h1, h2, h3, _⟩ := cutOne_spec hee hsr
    exact ⟨sl, sh, rfl, by omega, h3 hrr, by omega⟩
  · apply pairwise_flatMap
    · intro r hr
      obtain ⟨rl, rh, rfl, _, _, _⟩ := hin r hr
      exact cutOne_pairwise hee
    · refine hpw.imp_of_mem ?_
      intro r1 r2 hr1 hr2 hd x hx y hy
      obtain ⟨rl1, rh1, rfl, _, _, _⟩ := hin r1 hr1
      obtain ⟨rl2, rh2, rfl, _, _, _⟩ := hin r2 hr2
      obtain ⟨sl1, sh1, rfl, ha1, hb1, _, _⟩ := cutOne_spec hee hx
      obtain ⟨sl2, sh2, rfl, ha2, hb2, _, _⟩ := cutOne_spec hee hy
      rcases disj_finite_elim hd with ⟨xh, hxh, hlt⟩ | ⟨xl, hxl, hlt⟩
      · have hx2 : rh2 = xh := by simpa using hxh
        exact disj_of_finite (Or.inl ⟨sh2, by simp, by omega⟩)
      · have hx2 : rl2 = xl := by simpa using hxl
        exact disj_of_finite (Or.inr ⟨sl2, by simp, by omega⟩)
  · intro s hs
    obtain ⟨r, hr, hsr⟩ := List.mem_flatMap.1 hs
    obtain ⟨rl, rh, rfl, _, _, _⟩ := hin r hr
    obtain ⟨sl, sh, rfl, _, _, _, h5⟩ := cutOne_spec hee hsr
    rcases h5 with h5 | h5
    · exact disj_of_finite (Or.inr ⟨el, rfl, h5⟩)
    · exact disj_of_finite (Or.inl ⟨eh, rfl, h5⟩)
  · intro x hx s hs
    obtain ⟨r, hr, hsr⟩ := List.mem_flatMap.1 hs
    obtain ⟨rl, rh, rfl, _, _, _⟩ := hin r hr
    exact cutOne_disj hee (hx _ hr) hsr

/-- Invariant of the whole exclusion fold of `subtractRanges`. -/
theorem foldl_cut_inv {f t : Int} :
    ∀ (ex : List NumRange) (rem : List NumRange),
      (∀ e ∈ ex, ∃ a b : Int, e = ⟨some a, some b⟩ ∧ a ≤ b) →
      (∀ s ∈ rem, SegIn f t s) → rem.Pairwise Disj →
      (∀ s ∈ ex.foldl (fun remaining e => remaining.flatMap (fun r => cutOne e r)) rem,
          SegIn f t s) ∧
      (ex.foldl (fun remaining e => remaining.flatMap (fun r => cutOne e r)) rem).Pairwise Disj ∧
      (∀ e ∈ ex,
        ∀ s ∈ ex.foldl (fun remaining e => remaining.flatMap (fun r => cutOne e r)) rem,
          Disj s e) ∧
      (∀ x : NumRange, (∀ s ∈ rem, Disj s x) →
        ∀ s ∈ ex.foldl (fun remaining e => remaining.flatMap (fun r => cutOne e r)) rem,
          Disj s x) := by
  intro ex
  induction ex with
  | nil =>
    intro rem _ hin hpw
    refine ⟨by simpa using hin, by simpa using hpw, by simp, ?_⟩
    intro x hx s hs
    exact hx s (by simpa using hs)
  | cons e ext ih =>
    intro rem hex hin hpw
    obtain ⟨el, eh, rfl, hee⟩ := hex e (by simp)
    have hext : ∀ e' ∈ ext, ∃ a b : Int, e' = ⟨some a, some b⟩ ∧ a ≤ b :=
      fun e' he' => hex e' (by simp [he'])
    obtain ⟨s1, s2, s3, s4⟩ := step_inv hee hin hpw
    obtain ⟨c1, c2, c3, c4⟩ := ih _ hext s1 s2
    refine ⟨by simpa using c1, by simpa using c2, ?_, ?_⟩
    · intro e' he' s hs
      simp only [List.foldl_cons] at hs
      rcases List.mem_cons.1 he' with rfl | he'
      · exact c4 _ s3 s hs
      · exact c3 e' he' s hs
    · intro x hx s hs
      simp only [List.foldl_cons] at hs
      exact c4 x (s4 x hx) s hs

/-- Main soundness of `subtractRanges` on a proper finite base with proper
finite excludes. -/
theorem subtractRanges_spec {bl bh : Int} (hb : bl ≤ bh) {excludes : List NumRange}
    (hex : ∀ e ∈ excludes, ∃ a b : Int, e = ⟨some a, some b⟩ ∧ a ≤ b) :
    (∀ s ∈ subtractRanges ⟨some bl, some bh⟩ excludes, SegIn bl bh s) ∧
    (subtractRanges ⟨some bl, some bh⟩ excludes).Pairwise Disj ∧
    (∀ e ∈ excludes, ∀ s ∈ subtractRanges ⟨some bl, some bh⟩ excludes, Disj s e) := by
  have hmem : ∀ e ∈ jsSort leLo (excludes.filter
      (fun e => overlaps ⟨some bl, some bh⟩ e)), e ∈ excludes := by
    intro e he
    exact (List.mem_filter.1 (mem_jsSort.1 he)).1
  have hex' : ∀ e ∈ jsSort leLo (excludes.filter
      (fun e => overlaps ⟨some bl, some bh⟩ e)), ∃ a b : Int, e = ⟨some a, some b⟩ ∧ a ≤ b :=
    fun e he => hex e (hmem e he)
  have hbase : ∀ s ∈ [(⟨some bl, some bh⟩ : NumRange)], SegIn bl bh s := by
    intro s hs
    rcases List.mem_singleton.1 hs with rfl
    exact ⟨bl, bh, rfl, le_refl _, hb, le_refl _⟩
  obtain ⟨c1, c2, c3, _⟩ :=
    foldl_cut_inv (jsSort leLo (excludes.filter (fun e => overlaps ⟨some bl, some bh⟩ e)))
      [⟨some bl, some bh⟩] hex' hbase (List.pairwise_singleton _ _)
  refine ⟨c1, c2, ?_⟩
  intro e he s hs
  by_cases hov : overlaps ⟨some bl, some bh⟩ e = true
  · exact c3 e (mem_jsSort.2 (List.mem_filter.2 ⟨he, hov⟩)) s hs
  · obtain ⟨a, b, rfl, _⟩ := hex e he
    have hfa : b < bl ∨ bh < a :=
      overlaps_finite_false_iff.1 (Bool.not_eq_true _ ▸ hov)
    obtain ⟨sl, sh, rfl, h1, h2, h3⟩ := c1 s hs
    rcases hfa with hfa | hfa
    · exact disj_of_finite (Or.inl ⟨b, rfl, by omega⟩)
    · exact disj_of_finite (Or.inr ⟨a, rfl, by omega⟩)

/-- If no exclusion overlaps the base, subtraction returns the base itself. -/
theorem subtractRanges_no_overlap {base : NumRange} {excludes : List NumRange}
    (h : ∀ e ∈ excludes, overlaps base e = false) :
    subtractRanges base excludes = [base] := by
  unfold subtractRanges
  have hf : excludes.filter (fun e => overlaps base e) = [] := by
    rw [List.filter_eq_nil_iff]
    intro e he
    simp [h e he]
  rw [hf]
  rfl

/-! ## Dealer configuration (dealer_config store + dealerConfig.ts) -/

/-- The cached dealer configuration: master dealer code plus the alias table
(`alias → target`), fetched once per run from the external store. -/
structure DealerCfg where
  master : String
  aliases : List (String × String)
deriving DecidableEq, Repr

/-- Model of `aliases[code]` on the alias record. -/
def alLookup (m : List (String × String)) (k : String) : Option String :=
  (m.find? (fun p => p.1 == k)).map (fun p => p.2)

/-- Model of `normalizeDealerCodeDynamic` (identical in returnTransformer.ts and
erpTransformer.ts): left-pad to 6 and resolve through the alias table. -/
def normalizeDealerCodeDynamic (cfg : DealerCfg) (input : String) : String :=
  let code := jsPadStart input 6 '0'
  (alLookup cfg.aliases code).getD code

/-- Static `normalizeDealerCode` of dealerConfig.ts (part_006). -/
def MASTER_DEALER_CODE : String := "030520"

def dealerAliasMap : List (String × String) :=
  [("030589", MASTER_DEALER_CODE), ("030802", MASTER_DEALER_CODE)]

def normalizeDealerCode (raw : String) : String :=
  let code := jsTrim raw
  if code = "" then code
  else
    let code := jsFilterDigits code
    let code := jsPadStart code 6 '0'
    (alLookup dealerAliasMap code).getD code

/-! ## returnTransformer.ts, first variant (prefix-based barcodes) -/

namespace Ret

structure ReturnRow where
  DealerCode : String
  Game : String
  Draw : String
  Qty : J
  From : String
deriving DecidableEq, Repr

structure V1ExistingRow where
  DealerCode : String
  Game : Option String
  Draw : Option String
  From : String
  To : Option String
  Qty : Option J
deriving DecidableEq, Repr

/-- Model of `toDigitsString`: convert a cell to a digits-only string (scientific
notation goes through `Number` + `trunc` when it parses). -/
def toDigitsString : Cell → String
  | Cell.null => ""
  | Cell.num n => jsStringOfInt n
  | Cell.str s =>
    let raw := jsTrim s
    if raw = "" then ""
    else if raw.toList.any (fun c => c = 'e' || c = 'E') then
      match jsNumberStr raw with
      | some n => jsStringOfInt n
      | none => jsFilterDigits raw
    else jsFilterDigits raw

def isEmptyRow (row : List Cell) : Bool :=
  row.all (fun c => match c with
    | Cell.null => true
    | Cell.str s => jsTrim s = ""
    | Cell.num n => jsTrim (jsStringOfInt n) = "")

def jsUpper (s : String) : String := ⟨s.toList.map Char.toUpper⟩

def rowContainsTotal (row : List Cell) : Bool :=
  row.any (fun c => match c with
    | Cell.str s => strIncludes (jsUpper s) "TOTAL"
    | _ => false)

/-- Model of `normalizeBarcodeTo7(value, defaultPrefix2)`: last 7 digits, or prepend a
2-digit default prefix and left-pad when short. -/
def normalizeBarcodeTo7 (value : Cell) (defaultPrefix2 : String) : String :=
  let digits := toDigitsString value
  if digits = "" then ""
  else
    let p2 : String := ⟨(jsFilterDigits defaultPrefix2).toList.take 2⟩
    if 7 ≤ strLen digits then jsSliceLast digits 7
    else jsSliceLast (jsPadStart (p2 ++ digits) 7 '0') 7

def normalizeBarcodeStringTo7 (value : String) : String :=
  let digits := jsFilterDigits value
  if digits = "" then ""
  else if 7 ≤ strLen digits then jsSliceLast digits 7
  else jsPadStart digits 7 '0'

def detectDealerCode (cfg : DealerCfg) (row : List Cell) : Option String :=
  row.findSome? (fun cell =>
    let digits := toDigitsString cell
    if strLen digits = 5 || strLen digits = 6 then
      some (normalizeDealerCodeDynamic cfg digits)
    else none)

/-- Model of `detectFromAndQty`: first cell with a ≥7-digit run is the From cell; the
last cell (right-to-left) with a 1–5 digit run that parses is the Qty. -/
def detectFromAndQty (row : List Cell) : Option Cell × Option Int :=
  (row.find? (fun cell => decide (7 ≤ strLen (toDigitsString cell))),
   row.reverse.findSome? (fun cell =>
     let digits := toDigitsString cell
     if 0 < strLen digits ∧ strLen digits ≤ 5 then
       match jsNumberStr digits with
       | some n => some n
       | none => none
     else none))

/-- Model of `parseReturnRow` (the `!fromCell` test coincides with the null test: any
cell whose digit string has ≥7 characters is truthy). -/
def parseReturnRow (cfg : DealerCfg) (row : List Cell) (gameName draw : String)
    (defaultPrefix2 : String) : Option ReturnRow :=
  if isEmptyRow row then none
  else if rowContainsTotal row then none
  else
    match detectDealerCode cfg row with
    | none => none
    | some dealer =>
      match detectFromAndQty row with
      | (some fromCell, some qty) =>
        some ⟨dealer, gameName, draw, some qty, normalizeBarcodeTo7 fromCell defaultPrefix2⟩
      | _ => none

def pad7 (n : J) : String := jsPadStart (jsStringOfJ n) 7 '0'

def keyFor (row : ReturnRow) (strict : Bool) : String :=
  let dealer6 := jsPadStart (jsFilterDigits row.DealerCode) 6 '0'
  if !strict then dealer6
  else dealer6 ++ "__" ++ jsTrim row.Game ++ "__" ++ jsTrim row.Draw

/-- Model of `idx.get(k) ?? []` on the association-list model of the `Map`. -/
def alGetD (idx : List (String × List NumRange)) (k : String) : List NumRange :=
  ((idx.find? (fun p => p.1 == k)).map (fun p => p.2)).getD []

/-- Model of `idx.set(k, v)` (update in place, else append; insertion order kept). -/
def alSet (idx : List (String × List NumRange)) (k : String) (v : List NumRange) :
    List (String × List NumRange) :=
  if idx.any (fun p => p.1 == k) then idx.map (fun p => if p.1 == k then (k, v) else p)
  else idx ++ [(k, v)]

/-- JS truthiness of `r.To : string | undefined`. -/
def jsTruthyS : Option String → Bool
  | some s => s ≠ ""
  | none => false

/-- Build the exclusion index of `applyV1Exclusion` (before per-key sorting). -/
def buildIdx (v1 : List V1ExistingRow) (strict : Bool) :
    List (String × List NumRange) :=
  v1.foldl (fun idx r =>
    let dealer6 := jsPadStart (jsFilterDigits r.DealerCode) 6 '0'
    let from7 := normalizeBarcodeStringTo7 r.From
    if from7 = "" then idx
    else
      match jsNumberStr from7 with
      | none => idx
      | some fromN =>
        let toN : Option Int :=
          if jsTruthyS r.To then
            match jsNumberStr (normalizeBarcodeStringTo7 (r.To.getD "")) with
            | some n => some n
            | none => none
          else
            match r.Qty with
            | some (some qv) => if 0 < qv then some (fromN + (qv - 1)) else none
            | _ => none
        match toN with
        | none => idx
        | some toV =>
          let norm : NumRange :=
            if fromN ≤ toV then ⟨some fromN, some toV⟩ else ⟨some toV, some fromN⟩
          let k :=
            if strict then
              dealer6 ++ "__" ++ jsTrim (r.Game.getD "") ++ "__" ++ jsTrim (r.Draw.getD "")
            else dealer6
          alSet idx k (alGetD idx k ++ [norm])) []

/-- Per-key sorting pass over the index. -/
def sortIdx (idx : List (String × List NumRange)) : List (String × List NumRange) :=
  idx.map (fun p => (p.1, jsSort leLo p.2))

/-- Emission of the leftover segments of one parsed row. -/
def emitRow (idx : List (String × List NumRange)) (strict : Bool) (row : ReturnRow) :
    List ReturnRow :=
  let k := keyFor row strict
  let excludes := alGetD idx k
  if decide (row.From = "") || jFalsy row.Qty || jLe row.Qty (some 0) then []
  else
    let fromN := jsNumberStr row.From
    let toN := jAdd fromN (jSub row.Qty (some 1))
    let base : NumRange := ⟨fromN, toN⟩
    (subtractRanges base excludes).filterMap (fun seg =>
      let qty := jAdd (jSub seg.hi seg.lo) (some 1)
      if jLe qty (some 0) then none
      else some ⟨row.DealerCode, row.Game, row.Draw, qty, pad7 seg.lo⟩)

/-- Model of `applyV1Exclusion(rows, v1, strictMatchGameDraw)`. -/
def applyV1Exclusion (rows : List ReturnRow) (v1 : List V1ExistingRow)
    (strict : Bool) : List ReturnRow :=
  if v1 = [] then rows
  else rows.flatMap (emitRow (sortIdx (buildIdx v1 strict)) strict)

/-- Model of `buildReturnRows(data, gameName, draw, defaultPrefix2, v1Existing, opts)`. -/
def buildReturnRows (cfg : DealerCfg) (data : List (List Cell))
    (gameName draw : String) (defaultPrefix2 : String)
    (v1Existing : List V1ExistingRow) (strict : Bool) : List ReturnRow :=
  applyV1Exclusion
    (data.filterMap (fun row => parseReturnRow cfg row gameName draw defaultPrefix2))
    v1Existing strict

end Ret

/-! ## erpTransformer.ts (part_008 variant, with trim + master gap fill) -/

namespace Erp

/-- Output row with both endpoints (`StructuredRowInternal`). -/
structure StructuredRowInternal where
  DealerCode : String
  Game : String
  Draw : String
  From : Int
  To : Int
  Qty : Int
deriving DecidableEq, Repr

/-- Breaking / availability segment; source fields `start` / `end`
(`end` is a Lean keyword, renamed `stop`). -/
structure BreakingSegment where
  start : Int
  stop : Int
deriving DecidableEq, Repr

/-- Internal row carrying the ordering key.  The source uses fractional
indices (`i`, `i + idx * 0.001`, `i - 0.1`); they are modelled scaled by
1000 (`1000 * i`, `1000 * i + idx`, `1000 * i - 100`), which is
order-isomorphic. -/
structure InternalRow where
  rowIndex : Int
  DealerCode : String
  Game : String
  Draw : String
  Qty : Int
  From : Int
  To : Int
deriving DecidableEq, Repr

/-- Model of `toNumber`: strip everything but digits and minus signs, then `Number`. -/
def toNumber (value : Cell) : Option Int :=
  match value with
  | Cell.null => none
  | Cell.str s =>
    let cleaned := s.toList.filter (fun c => isDigitB c || c = '-')
    if cleaned = [] then none else parseSignedDigits cleaned
  | Cell.num n =>
    let cleaned := (jsStringOfInt n).toList.filter (fun c => isDigitB c || c = '-')
    if cleaned = [] then none else parseSignedDigits cleaned

/-- Model of `trimBarcodeNumber(n, trimDigits)`: drop the first N decimal digits. -/
def trimBarcodeNumber (n : Int) (trimDigits : Int) : Option Int :=
  let t := max 0 trimDigits
  let s := jsStringOfInt n
  if t = 0 then some n
  else if strLen s ≤ t.toNat then none
  else
    let cut := s.toList.drop t.toNat
    let cleaned := cut.dropWhile (fun c => c = '0')
    if cleaned = [] then some 0
    else
      match parseSignedDigits cleaned with
      | some out => some out
      | none => none

/-- Model of `detectDealerCode` (ERP variant, with the `?` master fallback). -/
def detectDealerCode (cfg : DealerCfg) (row : List Cell) : Option String :=
  match row.findSome? (fun cell =>
    match toNumber cell with
    | some n =>
      let s := jsStringOfInt n
      if strLen s = 5 || strLen s = 6 then some (normalizeDealerCodeDynamic cfg s)
      else none
    | none => none) with
  | some d => some d
  | none =>
    if row.any (fun cell => match cell with
        | Cell.str s => s.toList.contains '?'
        | _ => false) then
      some cfg.master
    else none

/-- Model of `detectBarcodes(row, trimDigits)`: collect the ≥7-digit numbers, trim,
sort ascending; smallest is From, second smallest is To. -/
def detectBarcodes (row : List Cell) (trimDigits : Int) : Option Int × Option Int :=
  let nums := row.filterMap (fun c =>
    match toNumber c with
    | some n =>
      if 7 ≤ strLen (jsStringOfInt n) then trimBarcodeNumber n trimDigits else none
    | none => none)
  let sorted := jsSort (fun a b : Int => a ≤ b) nums
  (sorted[0]?, sorted[1]?)

def hasHashMarker (row : List Cell) : Bool :=
  row.any (fun c => match c with
    | Cell.str s => s.toList.contains '#'
    | _ => false)

/-- Model of `buildBreakingSegments(totalFrom, breakSizes)`. -/
def buildBreakingSegments (totalFrom : Option Int) (breakSizes : List Int) :
    List BreakingSegment :=
  match totalFrom with
  | none => []
  | some start0 =>
    (breakSizes.foldl (fun acc size =>
      if 0 < size then (acc.1 ++ [⟨acc.2, acc.2 + size - 1⟩], acc.2 + size)
      else acc) (([] : List BreakingSegment), start0)).1

/-- Model of `splitBySegments`: restrict a dealer range to the availability segments
(or pass it through when no segments are declared). -/
def splitBySegments (dealerCode : String) (fromBarcode toBarcode : Int)
    (gameName drawDate : String) (baseIndex : Int)
    (segments : List BreakingSegment) : List InternalRow :=
  if segments = [] then
    [⟨baseIndex, dealerCode, gameName, drawDate,
      toBarcode - fromBarcode + 1, fromBarcode, toBarcode⟩]
  else
    segments.enum.filterMap (fun p =>
      let start := max fromBarcode p.2.start
      let stop := min toBarcode p.2.stop
      if start ≤ stop then
        some ⟨baseIndex + (p.1 : Int), dealerCode, gameName, drawDate,
          stop - start + 1, start, stop⟩
      else none)

/-- First `ITEM :` cell of a row, already stripped and trimmed. -/
def rowItemName (row : List Cell) : Option String :=
  row.findSome? (fun cell =>
    match cell with
    | Cell.str s =>
      if strIncludes s "ITEM :" then some (jsTrim (strDropFirst s "ITEM :")) else none
    | _ => none)

/-- Leftmost `\d{4}-\d{2}-\d{2}` match inside a string. -/
def tryDateAt (l : List Char) : Option String :=
  match l with
  | a :: b :: c :: d :: e :: f :: g :: h :: i :: j :: _ =>
    if isDigitB a && isDigitB b && isDigitB c && isDigitB d && e = '-' &&
        isDigitB f && isDigitB g && h = '-' && isDigitB i && isDigitB j then
      some ⟨[a, b, c, d, e, f, g, h, i, j]⟩
    else none
  | _ => none

def findDateSub : List Char → Option String
  | [] => none
  | a :: t =>
    match tryDateAt (a :: t) with
    | some m => some m
    | none => findDateSub t

/-- Model of `buildStructuredRows(data, breakingSegments, gameNameOverride,
gapFillEnabled, drawDateOverride, trimDigits)` of part_008. -/
def buildStructuredRows (cfg : DealerCfg) (data : List (List Cell))
    (breakingSegments : List BreakingSegment) (gameNameOverride : Option String)
    (gapFillEnabled : Bool) (drawDateOverride : Option String)
    (trimDigits : Int) : List StructuredRowInternal :=
  let gn0 := (gameNameOverride.map jsTrim).getD ""
  let gameName :=
    if gn0 ≠ "" then gn0
    else (data.findSome? (fun row =>
      match rowItemName row with
      | some g => if g ≠ "" then some g else none
      | none => none)).getD ""
  let drawDate := data.foldl (fun acc row =>
    row.foldl (fun acc cell =>
      match cell with
      | Cell.str s =>
        if strIncludes s "DRAW DATE" then
          match findDateSub s.toList with
          | some m => m
          | none => acc
        else acc
      | _ => acc) acc) ""
  let ovr := (drawDateOverride.map jsTrim).getD ""
  let finalDrawDate :=
    if (drawDateOverride.getD "") ≠ "" ∧ ovr ≠ "" then ovr
    else if drawDate ≠ "" ∧ jsTrim drawDate ≠ "" then jsTrim drawDate
    else ""
  let mains := data.enum.filterMap (fun p =>
    match detectDealerCode cfg p.2 with
    | none => none
    | some dealer =>
      match detectBarcodes p.2 trimDigits with
      | (some f, some t) => some ((p.1 : Int), dealer, f, t)
      | _ => none)
  let dealerRows := mains.map (fun m => (m.1, m.2.1, m.2.2.2))
  let out1 := mains.flatMap (fun m =>
    splitBySegments m.2.1 m.2.2.1 m.2.2.2 gameName finalDrawDate (1000 * m.1)
      breakingSegments)
  let masterDealer := jsPadStart (if cfg.master = "" then "030520" else cfg.master) 6 '0'
  let out2 :=
    if gapFillEnabled then
      data.enum.flatMap (fun p =>
        if hasHashMarker p.2 then
          match (detectBarcodes p.2 trimDigits).1 with
          | some nextStart =>
            match (jsSort (fun a b : Int × String × Int => b.1 ≤ a.1)
                (dealerRows.filter (fun d => d.1 < (p.1 : Int))))[0]? with
            | some prev =>
              let gapFrom := prev.2.2 + 1
              let gapTo := nextStart - 1
              let gapQty := gapTo - gapFrom + 1
              if gapQty ≤ 0 then []
              else
                splitBySegments masterDealer gapFrom gapTo gameName finalDrawDate
                  (1000 * (p.1 : Int) - 100) breakingSegments
            | none => []
          | none => []
        else [])
    else []
  (jsSort (fun a b : InternalRow => a.rowIndex ≤ b.rowIndex) (out1 ++ out2)).map
    (fun r => ⟨r.DealerCode, r.Game, r.Draw, r.From, r.To, r.Qty⟩)

/-- Per-file availability block as typed in the UI (part_007); source fields
`from` / `to` (Lean keywords, renamed `bFrom` / `bTo`). -/
structure AvailabilityBlock where
  bFrom : String
  bTo : String
deriving DecidableEq, Repr

/-- Model of `buildAvailabilitySegments(blocks, trimDigits)` of part_007: trim-aware
conversion of the UI blocks; sorts by start but does NOT merge overlaps. -/
def buildAvailabilitySegments (blocks : List AvailabilityBlock)
    (trimDigits : Int) : List BreakingSegment :=
  let segs := blocks.filterMap (fun b =>
    match toNumber (Cell.str b.bFrom), toNumber (Cell.str b.bTo) with
    | some fr, some tr =>
      match trimBarcodeNumber fr trimDigits, trimBarcodeNumber tr trimDigits with
      | some fn, some tn => if fn ≤ tn then some (⟨fn, tn⟩ : BreakingSegment) else none
      | _, _ => none
    | _, _ => none)
  jsSort (fun a b : BreakingSegment => a.start ≤ b.start) segs

end Erp

/-! ## returnTransformer.ts, second variant (trim-based barcodes) -/

namespace RetTrim

/-- Model of `trimDigitsFromString(digits, trimDigits)`: drop the first N characters. -/
def trimDigitsFromString (digits : String) (trimDigits : Int) : String :=
  let t := max 0 trimDigits
  if t ≤ 0 then digits
  else if digits = "" then ""
  else if strLen digits ≤ t.toNat then ""
  else jsSliceFrom digits t.toNat

/-- Model of `normalizeBarcodeTo7(value, trimDigits)` of the trim variant
(its `toDigitsString` is identical to the first variant's). -/
def normalizeBarcodeTo7 (value : Cell) (trimDigits : Int) : String :=
  let rawDigits := Ret.toDigitsString value
  if rawDigits = "" then ""
  else
    let trimmed := trimDigitsFromString rawDigits trimDigits
    if trimmed = "" then ""
    else if 7 ≤ strLen trimmed then jsSliceLast trimmed 7
    else jsPadStart trimmed 7 '0'

end RetTrim

/-! ## Well-formedness of the V1 exclusion index -/

namespace Ret

/-- Every range stored under any key of the index is finite and proper. -/
def IdxWF (idx : List (String × List NumRange)) : Prop :=
  ∀ p ∈ idx, ∀ e ∈ p.2, ∃ a b : Int, e = ⟨some a, some b⟩ ∧ a ≤ b

theorem alGetD_sub {idx : List (String × List NumRange)} {k : String} :
    ∀ e ∈ alGetD idx k, ∃ p ∈ idx, e ∈ p.2 := by
  intro e he
  unfold alGetD at he
  cases hf : idx.find? (fun p => p.1 == k) with
  | none => rw [hf] at he; simp at he
  | some p =>
    rw [hf] at he
    simp at he
    exact ⟨p, List.mem_of_find?_eq_some hf, he⟩

theorem IdxWF_alGetD {idx : List (String × List NumRange)} (h : IdxWF idx) (k : String) :
    ∀ e ∈ alGetD idx k, ∃ a b : Int, e = ⟨some a, some b⟩ ∧ a ≤ b := by
  intro e he
  obtain ⟨p, hp, hep⟩ := alGetD_sub e he
  exact h p hp e hep

theorem IdxWF_alSet {idx : List (String × List NumRange)} {k : String}
    {v : List NumRange} (h : IdxWF idx)
    (hv : ∀ e ∈ v, ∃ a b : Int, e = ⟨some a, some b⟩ ∧ a ≤ b) :
    IdxWF (alSet idx k v) := by
  intro p hp e hep
  unfold alSet at hp
  by_cases hc : idx.any (fun p => p.1 == k) = true
  · rw [if_pos hc] at hp
    obtain ⟨q, hq, hqe⟩ := List.mem_map.1 hp
    by_cases hk : (q.1 == k) = true
    · rw [if_pos hk] at hqe
      subst hqe
      exact hv e hep
    · rw [if_neg hk] at hqe
      subst hqe
      exact h q hq e hep
  · rw [if_neg hc] at hp
    rcases List.mem_append.1 hp with hp | hp
    · exact h p hp e hep
    · rcases List.mem_singleton.1 hp with rfl
      exact hv e hep

theorem IdxWF_buildIdx (v1 : List V1ExistingRow) (strict : Bool) :
    IdxWF (buildIdx v1 strict) := by
  unfold buildIdx
  generalize hidx : ([] : List (String × List NumRange)) = idx0
  have h0 : IdxWF idx0 := by rw [← hidx]; intro p hp; simp at hp
  clear hidx
  induction v1 generalizing idx0 with
  | nil => simpa using h0
  | cons r rest ih =>
    rw [List.foldl_cons]
    apply ih
    by_cases h1 : normalizeBarcodeStringTo7 r.From = ""
    · simpa [h1] using h0
    · simp only [if_neg h1]
      cases h2 : jsNumberStr (normalizeBarcodeStringTo7 r.From) with
      | none => simpa using h0
      | some fromN =>
        set toN : Option Int :=
          (if jsTruthyS r.To then
            match jsNumberStr (normalizeBarcodeStringTo7 (r.To.getD "")) with
            | some n => some n
            | none => none
          else
            match r.Qty with
            | some (some qv) => if 0 < qv then some (fromN + (qv - 1)) else none
            | _ => none) with htoN
        cases h3 : toN with
        | none => simpa [← htoN, h3] using h0
        | some toV =>
          simp only [← htoN, h3]
          apply IdxWF_alSet h0
          intro e he
          rcases List.mem_append.1 he with he | he
          · exact IdxWF_alGetD h0 _ e he
          · rcases List.mem_singleton.1 he with rfl
            by_cases hle : fromN ≤ toV
            · exact ⟨fromN, toV, by simp [hle], hle⟩
            · exact ⟨toV, fromN, by simp [hle], by omega⟩

theorem IdxWF_sortIdx {idx : List (String × List NumRange)} (h : IdxWF idx) :
    IdxWF (sortIdx idx) := by
  intro p hp e hep
  obtain ⟨q, hq, hqe⟩ := List.mem_map.1 hp
  subst hqe
  exact h q hq e (mem_jsSort.1 hep)

/-! ### Round-trip of `pad7` through `Number` -/

theorem toList_mk (l : List Char) : (String.mk l).toList = l := rfl

theorem jsStringOfInt_nonneg {n : Int} (h : 0 ≤ n) :
    jsStringOfInt n = natStr n.toNat := by
  unfold jsStringOfInt
  rw [if_neg (by omega)]

theorem pad7_toList {n : Int} (h : 0 ≤ n) :
    (pad7 (some n)).toList =
      List.replicate (7 - (natDigits n.toNat).length) '0' ++ natDigits n.toNat := by
  have h1 : pad7 (some n) = jsPadStart (jsStringOfInt n) 7 '0' := rfl
  rw [h1, jsStringOfInt_nonneg h]
  rfl

theorem pad7_allDigits {n : Int} (h : 0 ≤ n) :
    allDigits (pad7 (some n)).toList = true := by
  rw [pad7_toList h]
  unfold allDigits
  rw [List.all_append, Bool.and_eq_true]
  refine ⟨List.all_eq_true.2 (fun c hc => ?_), List.all_eq_true.2 (fun c hc => ?_)⟩
  · rw [List.eq_of_mem_replicate hc]; rfl
  · exact natDigits_digits c hc

theorem pad7_ne_nil {n : Int} (h : 0 ≤ n) : (pad7 (some n)).toList ≠ [] := by
  rw [pad7_toList h]
  intro hcon
  rcases List.append_eq_nil.1 hcon with ⟨_, h2⟩
  exact natDigits_ne_nil _ h2

theorem pad7_ne_empty {n : Int} (h : 0 ≤ n) : pad7 (some n) ≠ "" := by
  intro hcon
  exact pad7_ne_nil h (by rw [hcon]; rfl)

theorem jsNumberStr_pad7 {n : Int} (h : 0 ≤ n) :
    jsNumberStr (pad7 (some n)) = some n := by
  have hmk : pad7 (some n) =
      String.mk (List.replicate (7 - (natDigits n.toNat).length) '0' ++ natDigits n.toNat) := by
    cases hp : pad7 (some n) with
    | mk d =>
      have htl := pad7_toList h
      rw [hp, toList_mk] at htl
      rw [htl]
  rw [hmk]
  have hne : List.replicate (7 - (natDigits n.toNat).length) '0' ++ natDigits n.toNat ≠ [] := by
    intro hcon
    rcases List.append_eq_nil.1 hcon with ⟨_, h2⟩
    exact natDigits_ne_nil _ h2
  have hdig : allDigits
      (List.replicate (7 - (natDigits n.toNat).length) '0' ++ natDigits n.toNat) = true := by
    unfold allDigits
    rw [List.all_append, Bool.and_eq_true]
    refine ⟨List.all_eq_true.2 (fun c hc => ?_), List.all_eq_true.2 (fun c hc => ?_)⟩
    · rw [List.eq_of_mem_replicate hc]; rfl
    · exact natDigits_digits c hc
  rw [jsNumberStr_digits hne hdig, digitsValList_append_zeros, digitsValList_natDigits]
  congr 1
  omega

/-! ### Shape of the rows emitted by `emitRow` -/

theorem emitRow_eq_nil {idx : List (String × List NumRange)} {strict : Bool}
    {row : ReturnRow}
    (h : (decide (row.From = "") || jFalsy row.Qty || jLe row.Qty (some 0)) = true) :
    emitRow idx strict row = [] := by
  simp only [emitRow, h, if_true]

theorem emitRow_shape {idx : List (String × List NumRange)} {strict : Bool}
    {row : ReturnRow}
    (hwf : ∀ e ∈ alGetD idx (keyFor row strict), ∃ a b : Int, e = ⟨some a, some b⟩ ∧ a ≤ b)
    {f0 : Int} (hfrom : jsNumberStr row.From = some f0) :
    ∀ r ∈ emitRow idx strict row,
      ∃ sl sh : Int, f0 ≤ sl ∧ sl ≤ sh ∧
        r = ⟨row.DealerCode, row.Game, row.Draw, some (sh - sl + 1), pad7 (some sl)⟩ ∧
        ∀ e ∈ alGetD idx (keyFor row strict),
          overlaps ⟨some sl, some sh⟩ e = false := by
  intro r hr
  by_cases hg : (decide (row.From = "") || jFalsy row.Qty || jLe row.Qty (some 0)) = true
  · rw [emitRow_eq_nil hg] at hr
    simp at hr
  · have hg' := hg
    simp only [Bool.or_eq_true, not_or, Bool.not_eq_true, decide_eq_false_iff_not] at hg'
    obtain ⟨⟨hFrom, hQf⟩, hQle⟩ := hg'
    cases hq : row.Qty with
    | none => rw [hq] at hQf; simp [jFalsy] at hQf
    | some q =>
      rw [hq] at hQle
      have hq1 : 1 ≤ q := by
        simp only [jLe, decide_eq_false_iff_not, not_le] at hQle
        omega
      simp only [emitRow] at hr
      rw [if_neg hg] at hr
      rw [hfrom, hq] at hr
      simp only [jSub, jAdd] at hr
      obtain ⟨seg, hseg, hF⟩ := List.mem_filterMap.1 hr
      have hb : f0 ≤ f0 + (q - 1) := by omega
      have hspec := subtractRanges_spec hb hwf
      obtain ⟨sl, sh, hsegeq, h1, h2, h3⟩ := hspec.1 seg hseg
      subst hsegeq
      simp only [jSub, jAdd, jLe, decide_eq_true_eq] at hF
      rw [if_neg (by omega)] at hF
      refine ⟨sl, sh, h1, h2, ?_, ?_⟩
      · injection hF with hF
        exact hF.symm
      · intro e he
        exact hspec.2.2 e he _ hseg

/-- Re-emitting an already-emitted segment row against exclusions disjoint
from it returns exactly that row. -/
theorem emit_of_seg (idx : List (String × List NumRange)) (strict : Bool)
    (D G Dr : String) (sl sh : Int) (hsl : 0 ≤ sl) (h2 : sl ≤ sh)
    (hdisj : ∀ e ∈ alGetD idx (keyFor ⟨D, G, Dr, some (sh - sl + 1), pad7 (some sl)⟩ strict),
      overlaps ⟨some sl, some sh⟩ e = false) :
    emitRow idx strict ⟨D, G, Dr, some (sh - sl + 1), pad7 (some sl)⟩ =
      [⟨D, G, Dr, some (sh - sl + 1), pad7 (some sl)⟩] := by
  simp only [emitRow]
  rw [if_neg ?hguard]
  case hguard =>
    have hne := pad7_ne_empty hsl
    have hq0 : ¬(sh - sl + 1 = 0) := by omega
    have hq1 : ¬(sh - sl + 1 ≤ 0) := by omega
    simp [jFalsy, jLe, hne, hq0, hq1]
  rw [jsNumberStr_pad7 hsl]
  simp only [jSub, jAdd]
  have harith : sl + (sh - sl + 1 - 1) = sh := by omega
  rw [harith]
  rw [subtractRanges_no_overlap hdisj]
  have hq1 : ¬(sh - sl + 1 ≤ 0) := by omega
  simp [jLe, hq1]

/-- A row emitted by `emitRow` is a fixed point of `emitRow` (same index,
same scope): subtracting the same exclusions again returns it unchanged. -/
theorem emitRow_fix {idx : List (String × List NumRange)} {strict : Bool}
    {row : ReturnRow}
    (hwf : ∀ e ∈ alGetD idx (keyFor row strict), ∃ a b : Int, e = ⟨some a, some b⟩ ∧ a ≤ b)
    {f0 : Int} (hfrom : jsNumberStr row.From = some f0) (h0 : 0 ≤ f0)
    {r : ReturnRow} (hr : r ∈ emitRow idx strict row) :
    emitRow idx strict r = [r] := by
  obtain ⟨sl, sh, h1, h2, rfl, hdisj⟩ := emitRow_shape hwf hfrom r hr
  exact emit_of_seg idx strict row.DealerCode row.Game row.Draw sl sh
    (le_trans h0 h1) h2 hdisj

end Ret

theorem flatMap_congr_mem {l : List α} {f g : α → List β}
    (h : ∀ a ∈ l, f a = g a) : l.flatMap f = l.flatMap g := by
  induction l with
  | nil => rfl
  | cons a t ih =>
    rw [List.flatMap_cons, List.flatMap_cons, h a (by simp),
      ih (fun a ha => h a (by simp [ha]))]

/-- Model of `Number` of an all-digit string (possibly empty) is a nonnegative value. -/
theorem jsNumberStr_digits_nonneg {s : String} (h : allDigits s.toList = true) :
    ∃ n : Int, 0 ≤ n ∧ jsNumberStr s = some n := by
  by_cases hnil : s.toList = []
  · refine ⟨0, le_refl 0, ?_⟩
    unfold jsNumberStr
    rw [hnil]
    rfl
  · have hs : s = String.mk s.toList := by
      cases s with
      | mk d => rfl
    refine ⟨(digitsValList s.toList : Int), by positivity, ?_⟩
    rw [hs]
    exact jsNumberStr_digits hnil h

/-! ## Claims C1 – C3 -/

/-- Claim C1: with strict scope off, subtracting the single V1 range
[1000050, 1000059] of the same dealer from the parsed range
(DealerCode `030520`, From 1000000, Qty 100, i.e. [1000000, 1000099]) yields
exactly the two rows [1000000, 1000049] (Qty 50) and [1000060, 1000099]
(Qty 40), in order, preserving DealerCode/Game/Draw, with total remaining
quantity 90. -/
theorem c1_v1_partial_overlap_split :
    Ret.applyV1Exclusion
        [⟨"030520", "LOTTO", "2024-01-01", some 100, "1000000"⟩]
        [⟨"030520", none, none, "1000050", some "1000059", some (some 10)⟩]
        false =
      [⟨"030520", "LOTTO", "2024-01-01", some 50, "1000000"⟩,
       ⟨"030520", "LOTTO", "2024-01-01", some 40, "1000060"⟩] ∧
    (Ret.applyV1Exclusion
        [⟨"030520", "LOTTO", "2024-01-01", some 100, "1000000"⟩]
        [⟨"030520", none, none, "1000050", some "1000059", some (some 10)⟩]
        false).foldl (fun a r => jAdd a r.Qty) (some 0) = some 90 := by
  constructor
  · decide
  · decide

/-- Claim C2: for every proper base range [f, t] and every list of proper
exclusion ranges, each segment returned by `subtractRanges` lies inside
[f, t] (and is proper), the returned segments are pairwise non-overlapping,
and no returned segment intersects any exclusion range. -/
theorem c2_subtract_ranges_sound (f t : Int) (hft : f ≤ t) (exs : List (Int × Int))
    (hexs : ∀ p ∈ exs, p.1 ≤ p.2) :
    (∀ s ∈ subtractRanges ⟨some f, some t⟩
        (exs.map (fun p => (⟨some p.1, some p.2⟩ : NumRange))), SegIn f t s) ∧
    (subtractRanges ⟨some f, some t⟩
        (exs.map (fun p => (⟨some p.1, some p.2⟩ : NumRange)))).Pairwise Disj ∧
    (∀ p ∈ exs, ∀ s ∈ subtractRanges ⟨some f, some t⟩
        (exs.map (fun p => (⟨some p.1, some p.2⟩ : NumRange))),
      overlaps s ⟨some p.1, some p.2⟩ = false) := by
  have hex : ∀ e ∈ exs.map (fun p => (⟨some p.1, some p.2⟩ : NumRange)),
      ∃ a b : Int, e = ⟨some a, some b⟩ ∧ a ≤ b := by
    intro e he
    obtain ⟨p, hp, rfl⟩ := List.mem_map.1 he
    exact ⟨p.1, p.2, rfl, hexs p hp⟩
  obtain ⟨c1, c2, c3⟩ := subtractRanges_spec hft hex
  exact ⟨c1, c2, fun p hp s hs => c3 _ (List.mem_map_of_mem _ hp) s hs⟩

theorem c2_witness :
    ((1000000 : Int) ≤ 1000099) ∧
    (∀ p ∈ [((1000050 : Int), (1000059 : Int))], p.1 ≤ p.2) ∧
    ((∀ s ∈ subtractRanges ⟨some 1000000, some 1000099⟩
        ([((1000050 : Int), (1000059 : Int))].map
          (fun p => (⟨some p.1, some p.2⟩ : NumRange))), SegIn 1000000 1000099 s) ∧
      (subtractRanges ⟨some 1000000, some 1000099⟩
        ([((1000050 : Int), (1000059 : Int))].map
          (fun p => (⟨some p.1, some p.2⟩ : NumRange)))).Pairwise Disj ∧
      (∀ p ∈ [((1000050 : Int), (1000059 : Int))],
        ∀ s ∈ subtractRanges ⟨some 1000000, some 1000099⟩
          ([((1000050 : Int), (1000059 : Int))].map
            (fun p => (⟨some p.1, some p.2⟩ : NumRange))),
        overlaps s ⟨some p.1, some p.2⟩ = false)) :=
  ⟨by decide, by decide,
    c2_subtract_ranges_sound 1000000 1000099 (by decide)
      [((1000050 : Int), (1000059 : Int))] (by decide)⟩

/-- Claim C3 as stated is false: with an empty V1 list (or a V1 list that
does not touch the rows' dealer) `applyV1Exclusion` is the identity, so
double application returns the surviving rows, not the empty list. -/
theorem c3_cex :
    Ret.applyV1Exclusion
        (Ret.applyV1Exclusion [⟨"000001", "", "", some 5, "1000000"⟩] [] false) [] false =
      [⟨"000001", "", "", some 5, "1000000"⟩] ∧
    ([⟨"000001", "", "", some 5, "1000000"⟩] : List Ret.ReturnRow) ≠ [] := by
  constructor
  · decide
  · decide

/-- Claim C3 (amended): V1 exclusion is idempotent as a function — for every
row list whose `From` fields are digit strings, every V1 list and both
scopes, `excludeV1(excludeV1(R, V1), V1) = excludeV1(R, V1)`; double
application does not in general empty the result (rows disjoint from every
V1 range survive both passes, and with an empty V1 list exclusion is the
identity). -/
theorem c3_exclusion_idempotent (rows : List Ret.ReturnRow)
    (v1 : List Ret.V1ExistingRow) (strict : Bool)
    (hD : ∀ row ∈ rows, allDigits row.From.toList = true) :
    Ret.applyV1Exclusion (Ret.applyV1Exclusion rows v1 strict) v1 strict =
      Ret.applyV1Exclusion rows v1 strict := by
  by_cases hv : v1 = []
  · subst hv
    rfl
  · unfold Ret.applyV1Exclusion
    rw [if_neg hv, if_neg hv, List.flatMap_assoc]
    apply flatMap_congr_mem
    intro row hrow
    have hwf := Ret.IdxWF_alGetD (Ret.IdxWF_sortIdx (Ret.IdxWF_buildIdx v1 strict))
      (Ret.keyFor row strict)
    obtain ⟨f0, h0, hfrom⟩ := jsNumberStr_digits_nonneg (hD row hrow)
    exact flatMap_eq_self (fun r hr => Ret.emitRow_fix hwf hfrom h0 hr)

theorem c3_witness :
    (∀ row ∈ [(⟨"030520", "G", "D", some 100, "1000000"⟩ : Ret.ReturnRow)],
      allDigits row.From.toList = true) ∧
    Ret.applyV1Exclusion
        (Ret.applyV1Exclusion [⟨"030520", "G", "D", some 100, "1000000"⟩]
          [⟨"030520", none, none, "1000050", some "1000059", none⟩] false)
        [⟨"030520", none, none, "1000050", some "1000059", none⟩] false =
      Ret.applyV1Exclusion [⟨"030520", "G", "D", some 100, "1000000"⟩]
        [⟨"030520", none, none, "1000050", some "1000059", none⟩] false :=
  ⟨by decide,
    c3_exclusion_idempotent [⟨"030520", "G", "D", some 100, "1000000"⟩]
      [⟨"030520", none, none, "1000050", some "1000059", none⟩] false (by decide)⟩

/-! ## Claims C4 – C6 -/

/-- Claim C4: in the Range Builder's gap pass, a detected gap is attributed
to the Master Dealer Code: dealer row with (trimmed) range [100, 150] at row
index 2, `#` marker row at index 5 with detected From 160 — the gap
[151, 159] (Qty 9) is emitted for the configured master dealer `030520`,
not for the ordinary dealer of the preceding row. -/
theorem c4_gap_attributed_to_master :
    Erp.buildStructuredRows ⟨"030520", []⟩
        [[Cell.null], [Cell.null],
         [Cell.num 12345, Cell.num 10000100, Cell.num 10000150],
         [Cell.null], [Cell.null],
         [Cell.str "#", Cell.num 10000160]]
        [] (some "G") true none 5 =
      [⟨"012345", "G", "", 100, 150, 51⟩, ⟨"030520", "G", "", 151, 159, 9⟩] ∧
    (⟨"030520", "G", "", 151, 159, 9⟩ : Erp.StructuredRowInternal).DealerCode =
      (⟨"030520", []⟩ : DealerCfg).master ∧
    (⟨"012345", "G", "", 100, 150, 51⟩ : Erp.StructuredRowInternal).DealerCode ≠
      (⟨"030520", []⟩ : DealerCfg).master := by
  refine ⟨by decide, by decide, by decide⟩

/-- Claim C6 fails on the code: `buildAvailabilitySegments` sorts the
declared blocks but does not merge overlapping ones (contradicting its own
doc comment), so a range covered by overlapping blocks is double-counted:
base [10, 20] (Qty 11) against blocks [10, 20] and [15, 20] (merged union
exactly [10, 20]) yields segments summing to 17, not 11. -/
theorem c6_overlap_double_count :
    Erp.buildAvailabilitySegments [⟨"10", "20"⟩, ⟨"15", "20"⟩] 0 =
      [⟨10, 20⟩, ⟨15, 20⟩] ∧
    ((Erp.splitBySegments "030539" 10 20 "G" "" 0
        (Erp.buildAvailabilitySegments [⟨"10", "20"⟩, ⟨"15", "20"⟩] 0)).map
      (fun r => r.Qty)).sum = 17 ∧
    (20 : Int) - 10 + 1 = 11 ∧ (17 : Int) ≠ 11 := by
  refine ⟨by decide, by decide, by decide, by decide⟩

/-- Claim C5 as stated is false: `buildReturnRows` with an empty V1 list
returns parsed rows unfiltered, and the quantity detector can read a `0`
cell, so an output record with Qty = 0 is produced. -/
theorem c5_cex :
    Ret.buildReturnRows ⟨"030520", []⟩
        [[Cell.str "12345", Cell.str "1234567", Cell.str "0"]] "G" "D" "" [] false =
      [⟨"012345", "G", "D", some 0, "1234567"⟩] ∧
    (⟨"012345", "G", "D", some 0, "1234567"⟩ : Ret.ReturnRow).Qty = some 0 := by
  refine ⟨by decide, by decide⟩

theorem pairwise_get01 {R : α → α → Prop} {l : List α} (h : l.Pairwise R)
    {a b : α} (h0 : l[0]? = some a) (h1 : l[1]? = some b) : R a b := by
  cases l with
  | nil => simp at h0
  | cons x t =>
    cases t with
    | nil => simp at h1
    | cons y t2 =>
      have hxa : x = a := by simpa using h0
      have hyb : y = b := by simpa using h1
      rcases h with _ | ⟨hx, _⟩
      rw [← hxa, ← hyb]
      exact hx y (by simp)

/-- Both detected barcodes present implies From ≤ To (the collected numbers
are sorted ascending before being read off). -/
theorem detectBarcodes_le {row : List Cell} {tr : Int} {a b : Int}
    (h : Erp.detectBarcodes row tr = (some a, some b)) : a ≤ b := by
  unfold Erp.detectBarcodes at h
  have h0 := congrArg Prod.fst h
  have h1 := congrArg Prod.snd h
  simp only at h0 h1
  have hpw := @jsSort_pairwise Int (fun a b : Int => decide (a ≤ b))
    (fun a b c hab hbc => by
      simp only [decide_eq_true_eq] at hab hbc ⊢
      omega)
    (fun a b => by
      rcases le_total a b with hle | hle
      · exact Or.inl (by simpa using hle)
      · exact Or.inr (by simpa using hle))
    (row.filterMap (fun c =>
      match Erp.toNumber c with
      | some n =>
        if 7 ≤ strLen (jsStringOfInt n) then Erp.trimBarcodeNumber n tr else none
      | none => none))
  have := pairwise_get01 hpw h0 h1
  simpa using this

theorem splitBySegments_spec {d g dr : String} {fB tB base : Int}
    {segs : List Erp.BreakingSegment} (hft : fB ≤ tB) :
    ∀ r ∈ Erp.splitBySegments d fB tB g dr base segs,
      r.From ≤ r.To ∧ r.Qty = r.To - r.From + 1 := by
  intro r hr
  unfold Erp.splitBySegments at hr
  by_cases hs : segs = []
  · rw [if_pos hs] at hr
    rcases List.mem_singleton.1 hr with rfl
    exact ⟨hft, rfl⟩
  · rw [if_neg hs] at hr
    obtain ⟨p, _, hF⟩ := List.mem_filterMap.1 hr
    by_cases hle : max fB p.2.start ≤ min tB p.2.stop
    · rw [if_pos hle] at hF
      injection hF with hF
      subst hF
      exact ⟨hle, rfl⟩
    · rw [if_neg hle] at hF
      simp at hF


/-- Shapes of strings produced by the digit extractors: all digits, or a
minus sign followed by at least one digit. -/
def NumShape (s : String) : Prop :=
  allDigits s.toList = true ∨
    ∃ l, s.toList = '-' :: l ∧ allDigits l = true ∧ l ≠ []

theorem natStr_toList (n : Nat) : (natStr n).toList = natDigits n := rfl

theorem jsStringOfInt_shape (n : Int) : NumShape (jsStringOfInt n) := by
  unfold jsStringOfInt
  by_cases hn : n < 0
  · rw [if_pos hn]
    exact Or.inr ⟨natDigits n.natAbs, rfl,
      List.all_eq_true.2 (fun c hc => natDigits_digits c hc), natDigits_ne_nil _⟩
  · rw [if_neg hn]
    exact Or.inl (List.all_eq_true.2 (fun c hc => natDigits_digits c hc))

theorem toDigitsString_shape (c : Cell) : NumShape (Ret.toDigitsString c) := by
  cases c with
  | null => exact Or.inl rfl
  | num n => exact jsStringOfInt_shape n
  | str s =>
    simp only [Ret.toDigitsString]
    split
    · exact Or.inl rfl
    · split
      · split
        · exact jsStringOfInt_shape _
        · exact Or.inl (List.all_eq_true.2 (fun c hc => List.of_mem_filter hc))
      · exact Or.inl (List.all_eq_true.2 (fun c hc => List.of_mem_filter hc))

theorem jsNumberStr_neg_digits {l : List Char} (hne : l ≠ []) (hd : allDigits l = true) :
    jsNumberStr ⟨'-' :: l⟩ = some (-(digitsValList l : Int)) := by
  unfold jsNumberStr
  dsimp only [Ret.toList_mk]
  rw [jsTrimList_eq_self ?hws]
  case hws =>
    intro c hc
    rcases List.mem_cons.1 hc with rfl | hc
    · rfl
    · exact not_ws_of_digit (by simpa using List.all_eq_true.1 hd c hc)
  rw [if_neg (by simp)]
  simp [parseSignedDigits, hne, hd]

theorem sliceLast7_parses {s : String} (h7 : 7 ≤ strLen s) (hsh : NumShape s) :
    ∃ n, jsNumberStr (jsSliceLast s 7) = some n := by
  have hslice : (jsSliceLast s 7) = String.mk (s.toList.drop (s.toList.length - 7)) := rfl
  rcases hsh with hd | ⟨l, hl, hld, hlne⟩
  · refine ⟨(digitsValList (s.toList.drop (s.toList.length - 7)) : Int), ?_⟩
    rw [hslice]
    apply jsNumberStr_digits
    · intro hcon
      have := congrArg List.length hcon
      rw [List.length_drop] at this
      simp only [List.length_nil] at this
      unfold strLen at h7
      omega
    · exact List.all_eq_true.2
        (fun c hc => List.all_eq_true.1 hd c (List.mem_of_mem_drop hc))
  · have hlen : s.toList.length = l.length + 1 := by rw [hl]; rfl
    by_cases h8 : 8 ≤ s.toList.length
    · -- minus sign dropped
      have hll : 7 ≤ l.length := by omega
      refine ⟨(digitsValList (l.drop (l.length - 7)) : Int), ?_⟩
      rw [hslice, hl]
      have hstep : ('-' :: l).length - 7 = (l.length - 7) + 1 := by
        simp only [List.length_cons]
        omega
      rw [hstep, List.drop_succ_cons]
      apply jsNumberStr_digits
      · intro hcon
        have := congrArg List.length hcon
        rw [List.length_drop] at this
        simp only [List.length_nil] at this
        omega
      · exact List.all_eq_true.2
          (fun c hc => List.all_eq_true.1 hld c (List.mem_of_mem_drop hc))
    · -- length exactly 7: the sign survives
      have hk : s.toList.length - 7 = 0 := by omega
      refine ⟨-(digitsValList l : Int), ?_⟩
      rw [hslice, hk, List.drop_zero, hl]
      exact jsNumberStr_neg_digits hlne hld

theorem strLen_pos_ne_empty {s : String} (h : 1 ≤ strLen s) : ¬(s = "") := by
  intro hcon
  rw [hcon] at h
  simp [strLen] at h

theorem normalizeBarcodeTo7_parses {c : Cell} {p2 : String}
    (h7 : 7 ≤ strLen (Ret.toDigitsString c)) :
    ∃ n, jsNumberStr (Ret.normalizeBarcodeTo7 c p2) = some n := by
  unfold Ret.normalizeBarcodeTo7
  rw [if_neg (strLen_pos_ne_empty (by omega))]
  dsimp only
  rw [if_pos h7]
  exact sliceLast7_parses h7 (toDigitsString_shape c)

theorem parseReturnRow_from_numeric {cfg : DealerCfg} {row : List Cell}
    {g d p2 : String} {r : Ret.ReturnRow}
    (h : Ret.parseReturnRow cfg row g d p2 = some r) :
    ∃ n, jsNumberStr r.From = some n := by
  unfold Ret.parseReturnRow at h
  split at h
  · exact absurd h (by simp)
  · split at h
    · exact absurd h (by simp)
    · split at h
      · exact absurd h (by simp)
      · split at h
        · rename_i dealer hd fromCell qty hfq
          simp only [Option.some.injEq] at h
          have hfc : Ret.detectFromAndQty row =
              (some fromCell, some qty) := hfq
          have hfind := congrArg Prod.fst hfc
          simp only [Ret.detectFromAndQty] at hfind
          have hprop := List.find?_some hfind
          simp only [decide_eq_true_eq] at hprop
          rw [← h]
          exact normalizeBarcodeTo7_parses hprop
        · exact absurd h (by simp)


theorem buildStructuredRows_inv (cfg : DealerCfg) (data : List (List Cell))
    (segs : List Erp.BreakingSegment) (ovr : Option String) (gapFill : Bool)
    (dovr : Option String) (tr : Int) :
    ∀ r ∈ Erp.buildStructuredRows cfg data segs ovr gapFill dovr tr,
      r.From ≤ r.To ∧ r.Qty = r.To - r.From + 1 := by
  intro r hr
  simp only [Erp.buildStructuredRows] at hr
  obtain ⟨ir, hir, rfl⟩ := List.mem_map.1 hr
  rw [mem_jsSort] at hir
  rcases List.mem_append.1 hir with hir | hir
  · obtain ⟨m, hm, hspl⟩ := List.mem_flatMap.1 hir
    obtain ⟨p, hp, hFm⟩ := List.mem_filterMap.1 hm
    split at hFm
    · exact absurd hFm (by simp)
    · rename_i dealer hd
      split at hFm
      · rename_i f t hb
        simp only [Option.some.injEq] at hFm
        rw [← hFm] at hspl
        have hft : f ≤ t := detectBarcodes_le hb
        exact splitBySegments_spec hft _ hspl
      · exact absurd hFm (by simp)
  · split at hir
    · obtain ⟨p, hp, hin⟩ := List.mem_flatMap.1 hir
      split at hin
      · split at hin
        · rename_i nextStart hb
          split at hin
          · rename_i prev hprev
            split at hin
            · exact absurd hin (by simp)
            · rename_i hq
              have hle : prev.2.2 + 1 ≤ nextStart - 1 := by omega
              exact splitBySegments_spec hle _ hin
          · exact absurd hin (by simp)
        · exact absurd hin (by simp)
      · exact absurd hin (by simp)
    · exact absurd hir (by simp)

/-- Claim C5 (amended): every record emitted by `buildStructuredRows`
satisfies From ≤ To and Qty = To − From + 1 ≥ 1; `buildReturnRows`
guarantees a positive integer Qty on every output record whenever the V1
list is non-empty (with an empty V1 list, parsed rows pass through
unfiltered and can carry a detected Qty of 0; see the counterexample). -/
theorem c5_qty_invariant :
    (∀ (cfg : DealerCfg) (data : List (List Cell)) (segs : List Erp.BreakingSegment)
        (ovr : Option String) (gapFill : Bool) (dovr : Option String) (tr : Int),
      ∀ r ∈ Erp.buildStructuredRows cfg data segs ovr gapFill dovr tr,
        r.From ≤ r.To ∧ r.Qty = r.To - r.From + 1 ∧ 1 ≤ r.Qty) ∧
    (∀ (cfg : DealerCfg) (data : List (List Cell)) (g d p2 : String)
        (v1 : List Ret.V1ExistingRow) (strict : Bool), v1 ≠ [] →
      ∀ r ∈ Ret.buildReturnRows cfg data g d p2 v1 strict,
        ∃ q : Int, r.Qty = some q ∧ 1 ≤ q) := by
  constructor
  · intro cfg data segs ovr gapFill dovr tr r hr
    obtain ⟨h1, h2⟩ := buildStructuredRows_inv cfg data segs ovr gapFill dovr tr r hr
    exact ⟨h1, h2, by omega⟩
  · intro cfg data g d p2 v1 strict hv r hr
    unfold Ret.buildReturnRows Ret.applyV1Exclusion at hr
    rw [if_neg hv] at hr
    obtain ⟨row, hrowmem, hrem⟩ := List.mem_flatMap.1 hr
    obtain ⟨rawRow, _, hparse⟩ := List.mem_filterMap.1 hrowmem
    obtain ⟨f0, hfrom⟩ := parseReturnRow_from_numeric hparse
    have hwf := Ret.IdxWF_alGetD (Ret.IdxWF_sortIdx (Ret.IdxWF_buildIdx v1 strict))
      (Ret.keyFor row strict)
    obtain ⟨sl, sh, _, h2, rfl, _⟩ := Ret.emitRow_shape hwf hfrom r hrem
    exact ⟨sh - sl + 1, rfl, by omega⟩

theorem c5_witness :
    ((⟨"030520", "G", "", 151, 159, 9⟩ : Erp.StructuredRowInternal) ∈
        Erp.buildStructuredRows ⟨"030520", []⟩
          [[Cell.null], [Cell.null],
           [Cell.num 12345, Cell.num 10000100, Cell.num 10000150],
           [Cell.null], [Cell.null],
           [Cell.str "#", Cell.num 10000160]]
          [] (some "G") true none 5 ∧
      (151 : Int) ≤ 159 ∧ (9 : Int) = 159 - 151 + 1 ∧ (1 : Int) ≤ 9) ∧
    (([(⟨"099999", none, none, "2000000", some "2000009", none⟩ : Ret.V1ExistingRow)] ≠
        ([] : List Ret.V1ExistingRow)) ∧
      ∃ q : Int,
        (⟨"012345", "G", "D", some 50, "1234567"⟩ : Ret.ReturnRow).Qty = some q ∧ 1 ≤ q) := by
  constructor
  · have h := (c5_qty_invariant.1 ⟨"030520", []⟩
      [[Cell.null], [Cell.null],
       [Cell.num 12345, Cell.num 10000100, Cell.num 10000150],
       [Cell.null], [Cell.null],
       [Cell.str "#", Cell.num 10000160]]
      [] (some "G") true none 5 ⟨"030520", "G", "", 151, 159, 9⟩ (by decide))
    exact ⟨by decide, h⟩
  · refine ⟨by decide, ?_⟩
    exact c5_qty_invariant.2 ⟨"030520", []⟩
      [[Cell.str "12345", Cell.str "1234567", Cell.str "50"]] "G" "D" ""
      [⟨"099999", none, none, "2000000", some "2000009", none⟩] false (by decide)
      ⟨"012345", "G", "D", some 50, "1234567"⟩ (by decide)

/-! ## Claim C7: barcode normalization -/

theorem mk_toList (s : String) : String.mk s.toList = s := by
  cases s with
  | mk d => rfl

theorem toList_mk_eq (l : List Char) : (String.mk l).toList = l := rfl

theorem jsTrim_digits {s : String} (h : allDigits s.toList = true) : jsTrim s = s := by
  unfold jsTrim
  rw [jsTrimList_digits h, mk_toList]

theorem jsFilterDigits_of_digits {s : String} (h : allDigits s.toList = true) :
    jsFilterDigits s = s := by
  unfold jsFilterDigits
  rw [List.filter_eq_self.2 (fun c hc => List.all_eq_true.1 h c hc), mk_toList]

theorem digits_no_e {s : String} (h : allDigits s.toList = true) :
    (s.toList.any (fun c => c = 'e' || c = 'E')) = false := by
  rw [List.any_eq_false]
  intro c hc
  have hd := List.all_eq_true.1 h c hc
  simp only [isDigitB, decide_eq_true_eq] at hd
  rcases hd with h | h | h | h | h | h | h | h | h | h <;> subst h <;> decide

/-- On a nonempty all-digit string the digit extractor is the identity. -/
theorem toDigitsString_of_digits {d : String} (hd : allDigits d.toList = true)
    (hne : d ≠ "") : Ret.toDigitsString (Cell.str d) = d := by
  simp only [Ret.toDigitsString]
  rw [jsTrim_digits hd]
  rw [if_neg hne, digits_no_e hd]
  simp only [Bool.false_eq_true, if_false]
  exact jsFilterDigits_of_digits hd

theorem strLen_jsSliceLast (s : String) : strLen (jsSliceLast s 7) = min 7 (strLen s) := by
  unfold jsSliceLast jsSliceLastList strLen
  rw [toList_mk_eq, List.length_drop]
  omega

theorem strLen_jsPadStart (s : String) (n : Nat) (c : Char) :
    strLen (jsPadStart s n c) = max n (strLen s) := by
  unfold jsPadStart jsPadStartList strLen
  rw [toList_mk_eq, List.length_append, List.length_replicate]
  omega

theorem sliceLast_suffix (s : String) : (jsSliceLast s 7).toList <:+ s.toList := by
  unfold jsSliceLast jsSliceLastList
  rw [toList_mk_eq]
  exact List.drop_suffix _ _

/-- A suffix of length at most 7 survives `slice(-7)`. -/
theorem suffix_sliceLast {L d : List Char} (h : d <:+ L) (hd : d.length ≤ 7) :
    d <:+ jsSliceLastList L 7 := by
  obtain ⟨t, rfl⟩ := h
  unfold jsSliceLastList
  rw [List.length_append]
  have hk : t.length + d.length - 7 ≤ t.length := by omega
  rw [List.drop_append_of_le_length hk]
  exact List.suffix_append _ _

theorem padStart_suffix (s : String) (n : Nat) (c : Char) :
    s.toList <:+ (jsPadStart s n c).toList := by
  unfold jsPadStart jsPadStartList
  rw [toList_mk_eq]
  exact List.suffix_append _ _

theorem toList_append (s t : String) : (s ++ t).toList = s.toList ++ t.toList :=
  String.data_append s t

/-- Claim C7 as stated is false: the empty string is a digit string of
length < 7 but normalizes to the empty string, not to a 7-character one
(the code returns "" for barcode-less input by design). -/
theorem c7_cex :
    Ret.normalizeBarcodeTo7 (Cell.str "") "00" = "" ∧
    strLen (Ret.normalizeBarcodeTo7 (Cell.str "") "00") = 0 ∧
    strLen "" < 7 ∧ (0 : Nat) ≠ 7 := by
  refine ⟨by decide, by decide, by decide, by decide⟩

/-- Claim C7 (amended): for every NONEMPTY digit string `d`: in the
prefix variant, if `len(d) ≥ 7` the result is exactly the last 7 characters
of `d`, and if `len(d) < 7` the result has length exactly 7 and ends with
`d`, for every prefix parameter; in the trim variant the same two statements
hold with `d` replaced by the post-trim remainder `d'` whenever `d'` is
nonempty (empty input, and input fully consumed by the trim, normalize to
the empty string instead). -/
theorem c7_barcode_normalize_to7 :
    (∀ (d p2 : String), allDigits d.toList = true → d ≠ "" →
      ((7 ≤ strLen d →
        Ret.normalizeBarcodeTo7 (Cell.str d) p2 = jsSliceLast d 7 ∧
        strLen (Ret.normalizeBarcodeTo7 (Cell.str d) p2) = 7 ∧
        (Ret.normalizeBarcodeTo7 (Cell.str d) p2).toList <:+ d.toList) ∧
       (strLen d < 7 →
        strLen (Ret.normalizeBarcodeTo7 (Cell.str d) p2) = 7 ∧
        d.toList <:+ (Ret.normalizeBarcodeTo7 (Cell.str d) p2).toList))) ∧
    (∀ (d : String) (t : Int), allDigits d.toList = true → d ≠ "" →
      RetTrim.trimDigitsFromString d t ≠ "" →
      ((7 ≤ strLen (RetTrim.trimDigitsFromString d t) →
        RetTrim.normalizeBarcodeTo7 (Cell.str d) t =
          jsSliceLast (RetTrim.trimDigitsFromString d t) 7) ∧
       (strLen (RetTrim.trimDigitsFromString d t) < 7 →
        strLen (RetTrim.normalizeBarcodeTo7 (Cell.str d) t) = 7 ∧
        (RetTrim.trimDigitsFromString d t).toList <:+
          (RetTrim.normalizeBarcodeTo7 (Cell.str d) t).toList))) := by
  constructor
  · intro d p2 hd hne
    have hdig := toDigitsString_of_digits hd hne
    constructor
    · intro h7
      simp only [Ret.normalizeBarcodeTo7, hdig]
      rw [if_neg hne, if_pos h7]
      refine ⟨rfl, ?_, sliceLast_suffix d⟩
      rw [strLen_jsSliceLast]
      omega
    · intro h7
      simp only [Ret.normalizeBarcodeTo7, hdig]
      rw [if_neg hne, if_neg (by omega)]
      constructor
      · rw [strLen_jsSliceLast, strLen_jsPadStart]
        omega
      · have h1 : d.toList <:+
            ((⟨(jsFilterDigits p2).toList.take 2⟩ : String) ++ d).toList := by
          rw [toList_append]
          exact List.suffix_append _ _
        have h2 := padStart_suffix ((⟨(jsFilterDigits p2).toList.take 2⟩ : String) ++ d) 7 '0'
        have h3 : d.toList <:+
            (jsPadStart ((⟨(jsFilterDigits p2).toList.take 2⟩ : String) ++ d) 7 '0').toList :=
          h1.trans h2
        unfold jsSliceLast
        rw [toList_mk_eq]
        apply suffix_sliceLast h3
        unfold strLen at h7
        omega
  · intro d t hd hne hne'
    have hdig := toDigitsString_of_digits hd hne
    constructor
    · intro h7
      simp only [RetTrim.normalizeBarcodeTo7, hdig]
      rw [if_neg hne, if_neg hne', if_pos h7]
    · intro h7
      simp only [RetTrim.normalizeBarcodeTo7, hdig]
      rw [if_neg hne, if_neg hne', if_neg (by omega)]
      constructor
      · rw [strLen_jsPadStart]
        omega
      · exact padStart_suffix _ 7 '0'

theorem c7_witness :
    (allDigits ("123456789" : String).toList = true ∧ ("123456789" : String) ≠ "" ∧
      7 ≤ strLen "123456789" ∧
      Ret.normalizeBarcodeTo7 (Cell.str "123456789") "39" = jsSliceLast "123456789" 7) ∧
    (allDigits ("123" : String).toList = true ∧ ("123" : String) ≠ "" ∧
      strLen "123" < 7 ∧
      strLen (Ret.normalizeBarcodeTo7 (Cell.str "123") "39") = 7 ∧
      ("123" : String).toList <:+ (Ret.normalizeBarcodeTo7 (Cell.str "123") "39").toList) := by
  constructor
  · refine ⟨by decide, by decide, by decide, ?_⟩
    exact ((c7_barcode_normalize_to7.1 "123456789" "39" (by decide) (by decide)).1
      (by decide)).1
  · refine ⟨by decide, by decide, by decide, ?_, ?_⟩
    · exact ((c7_barcode_normalize_to7.1 "123" "39" (by decide) (by decide)).2 (by decide)).1
    · exact ((c7_barcode_normalize_to7.1 "123" "39" (by decide) (by decide)).2 (by decide)).2

/-! ## Claim C8: dealer-code normalization idempotence -/

theorem jsPadStart_of_len {s : String} {n : Nat} {c : Char} (h : n ≤ strLen s) :
    jsPadStart s n c = s := by
  unfold jsPadStart jsPadStartList
  unfold strLen at h
  rw [Nat.sub_eq_zero_of_le h]
  rw [List.replicate_zero, List.nil_append, mk_toList]

theorem jsPadStart_allDigits {s : String} (h : allDigits s.toList = true) (n : Nat) :
    allDigits (jsPadStart s n '0').toList = true := by
  unfold jsPadStart jsPadStartList
  rw [toList_mk_eq]
  unfold allDigits
  rw [List.all_append, Bool.and_eq_true]
  refine ⟨List.all_eq_true.2 (fun c hc => ?_), h⟩
  rw [List.eq_of_mem_replicate hc]
  rfl

theorem jsFilterDigits_allDigits (s : String) :
    allDigits (jsFilterDigits s).toList = true := by
  unfold jsFilterDigits
  rw [toList_mk_eq]
  exact List.all_eq_true.2 (fun c hc => List.of_mem_filter hc)

theorem alLookup_static (c : String) :
    alLookup dealerAliasMap c =
      if c = "030589" then some MASTER_DEALER_CODE
      else if c = "030802" then some MASTER_DEALER_CODE
      else none := by
  unfold alLookup dealerAliasMap
  by_cases h1 : c = "030589"
  · subst h1
    decide
  · by_cases h2 : c = "030802"
    · subst h2
      decide
    · rw [if_neg h1, if_neg h2]
      have hb1 : (("030589", MASTER_DEALER_CODE).1 == c) = false := by
        simp only [beq_eq_false_iff_ne, ne_eq]
        exact fun hcon => h1 hcon.symm
      have hb2 : (("030802", MASTER_DEALER_CODE).1 == c) = false := by
        simp only [beq_eq_false_iff_ne, ne_eq]
        exact fun hcon => h2 hcon.symm
      simp [List.find?, hb1, hb2]

/-- Claim C8 as stated is false: the dealer config store accepts alias
tables whose targets are themselves alias keys (no chain validation exists),
and on such a table resolution is not idempotent: with aliases
000001→000002 and 000002→000003, resolving "1" gives 000002, and resolving
the result gives 000003. -/
theorem c8_cex :
    normalizeDealerCodeDynamic ⟨"030520", [("000001", "000002"), ("000002", "000003")]⟩
        (normalizeDealerCodeDynamic
          ⟨"030520", [("000001", "000002"), ("000002", "000003")]⟩ "1") = "000003" ∧
    normalizeDealerCodeDynamic ⟨"030520", [("000001", "000002"), ("000002", "000003")]⟩
        "1" = "000002" ∧
    ("000003" : String) ≠ "000002" := by
  refine ⟨by decide, by decide, by decide⟩

theorem normalizeDealerCode_eq {x : String} (h : ¬jsTrim x = "") :
    normalizeDealerCode x =
      (alLookup dealerAliasMap (jsPadStart (jsFilterDigits (jsTrim x)) 6 '0')).getD
        (jsPadStart (jsFilterDigits (jsTrim x)) 6 '0') := by
  unfold normalizeDealerCode
  rw [if_neg h]

/-- Claim C8 (amended): the static `normalizeDealerCode` (fixed alias table
of dealerConfig.ts) is idempotent for every input; the dynamic variant is
idempotent for every input whenever the supplied alias table is closed under
resolution — every alias target is already 6-digit-padded and is not itself
an alias key.  Without that restriction idempotence fails (see the
counterexample). -/
theorem c8_dealer_normalize_idempotent :
    (∀ x : String, normalizeDealerCode (normalizeDealerCode x) = normalizeDealerCode x) ∧
    (∀ (cfg : DealerCfg) (x : String),
      (∀ p ∈ cfg.aliases, jsPadStart p.2 6 '0' = p.2 ∧ alLookup cfg.aliases p.2 = none) →
      normalizeDealerCodeDynamic cfg (normalizeDealerCodeDynamic cfg x) =
        normalizeDealerCodeDynamic cfg x) := by
  constructor
  · intro x
    by_cases hx : jsTrim x = ""
    · have hfx : normalizeDealerCode x = "" := by
        unfold normalizeDealerCode
        rw [if_pos hx, hx]
      rw [hfx]
      decide
    · have hfx := normalizeDealerCode_eq hx
      set c := jsPadStart (jsFilterDigits (jsTrim x)) 6 '0' with hc
      have hcd : allDigits c.toList = true :=
        jsPadStart_allDigits (jsFilterDigits_allDigits _) 6
      have hclen : 6 ≤ strLen c := by
        rw [hc, strLen_jsPadStart]
        omega
      have hcne : ¬(c = "") := by
        intro hcon
        rw [hcon] at hclen
        simp [strLen] at hclen
      have htr : jsTrim c = c := jsTrim_digits hcd
      rw [alLookup_static] at hfx
      by_cases h1 : c = "030589"
      · rw [hfx, if_pos h1]
        simp only [Option.getD_some]
        decide
      · by_cases h2 : c = "030802"
        · rw [hfx, if_neg h1, if_pos h2]
          simp only [Option.getD_some]
          decide
        · rw [hfx, if_neg h1, if_neg h2]
          simp only [Option.getD_none]
          have hstep := @normalizeDealerCode_eq c (by rw [htr]; exact hcne)
          rw [htr, jsFilterDigits_of_digits hcd, jsPadStart_of_len hclen,
            alLookup_static, if_neg h1, if_neg h2] at hstep
          simpa using hstep
  · intro cfg x hgood
    unfold normalizeDealerCodeDynamic
    dsimp only
    cases hl : alLookup cfg.aliases (jsPadStart x 6 '0') with
    | some v =>
      simp only [Option.getD_some]
      unfold alLookup at hl
      cases hf : cfg.aliases.find? (fun p => p.1 == jsPadStart x 6 '0') with
      | none => rw [hf] at hl; simp at hl
      | some p =>
        rw [hf] at hl
        simp only [Option.map_some'] at hl
        injection hl with hl
        obtain ⟨hpad, hnone⟩ := hgood p (List.mem_of_find?_eq_some hf)
        rw [hl] at hpad hnone
        rw [hpad, hnone]
        rfl
    | none =>
      simp only [Option.getD_none]
      have hpadlen : 6 ≤ strLen (jsPadStart x 6 '0') := by
        rw [strLen_jsPadStart]
        omega
      rw [jsPadStart_of_len hpadlen, hl]
      rfl

theorem c8_witness :
    normalizeDealerCode (normalizeDealerCode "30589") = normalizeDealerCode "30589" ∧
    (∀ p ∈ ([("000001", "030520")] : List (String × String)),
      jsPadStart p.2 6 '0' = p.2 ∧ alLookup [("000001", "030520")] p.2 = none) ∧
    normalizeDealerCodeDynamic ⟨"030520", [("000001", "030520")]⟩
        (normalizeDealerCodeDynamic ⟨"030520", [("000001", "030520")]⟩ "1") =
      normalizeDealerCodeDynamic ⟨"030520", [("000001", "030520")]⟩ "1" :=
  ⟨c8_dealer_normalize_idempotent.1 "30589", by decide,
    c8_dealer_normalize_idempotent.2 ⟨"030520", [("000001", "030520")]⟩ "1" (by decide)⟩

/-! ## Claims C9 and C10 -/

/-- Claim C9 as stated is false: two-barcode detection is not positional.
On a row listing the numerically larger barcode first, the code sorts the
collected numbers and returns the smaller as From — the row is reordered,
not discarded. -/
theorem c9_cex :
    Erp.detectBarcodes [Cell.num 9999999, Cell.num 7777777] 0 =
      (some 7777777, some 9999999) ∧
    (Erp.detectBarcodes [Cell.num 9999999, Cell.num 7777777] 0).1 ≠
      some (9999999 : Int) := by
  refine ⟨by decide, by decide⟩

/-- Claim C9 (amended): `detectBarcodes` collects every ≥7-digit number of
the row and sorts them ascending; From is the smallest and To the second
smallest, so whenever both are present From ≤ To, and a row whose first
barcode is larger than its second is reordered rather than yielding a
discarded non-positive-Qty range. -/
theorem c9_barcodes_sorted {row : List Cell} {tr : Int} {a b : Int}
    (h : Erp.detectBarcodes row tr = (some a, some b)) : a ≤ b :=
  detectBarcodes_le h

theorem c9_witness :
    Erp.detectBarcodes [Cell.num 9999999, Cell.num 7777777] 0 =
      (some (7777777 : Int), some (9999999 : Int)) ∧ (7777777 : Int) ≤ 9999999 :=
  ⟨by decide,
    @c9_barcodes_sorted [Cell.num 9999999, Cell.num 7777777] 0 7777777 9999999 (by decide)⟩

/-- The survival guard of `applyV1Exclusion` on one parsed row, as a
predicate (the negation of the source `continue` condition). -/
def Ret.rowKept (row : Ret.ReturnRow) : Bool :=
  !(decide (row.From = "") || jFalsy row.Qty || jLe row.Qty (some 0))

theorem flatMap_filter_of_nil {p : α → Bool} {g : α → List β}
    (h : ∀ x, p x = false → g x = []) (l : List α) :
    l.flatMap g = (l.filter p).flatMap g := by
  induction l with
  | nil => rfl
  | cons a t ih =>
    by_cases ha : p a = true
    · rw [List.flatMap_cons, List.filter_cons_of_pos ha, List.flatMap_cons, ih]
    · rw [List.flatMap_cons, h a (by simpa using ha),
        List.filter_cons_of_neg (by simpa using ha), List.nil_append, ih]

/-- Claim C10 as stated is false: with a non-empty V1 list, a row whose
From is a non-empty non-numeric string is NOT dropped when no exclusion
shares its key — it survives the vacuous subtraction and is emitted with a
NaN quantity and the barcode text `0000NaN`. -/
theorem c10_cex :
    Ret.applyV1Exclusion [⟨"000001", "", "", some 5, "abc"⟩]
        [⟨"000002", none, none, "1000000", some "1000009", none⟩] false =
      [⟨"000001", "", "", none, "0000NaN"⟩] ∧
    Ret.applyV1Exclusion [⟨"000001", "", "", some 5, "abc"⟩]
        [⟨"000002", none, none, "1000000", some "1000009", none⟩] false ≠ [] := by
  refine ⟨by decide, by decide⟩

/-- Claim C10 (amended): with an empty V1 list `applyV1Exclusion` is the
identity on its input rows (invalid rows included); with a non-empty V1
list, exactly the rows failing the survival guard — empty From, or a Qty
that is NaN, zero or negative — contribute nothing to the output (results
are as if they were filtered out first).  A row with a non-empty
non-numeric From is NOT covered by that guard: it is dropped only when some
V1 range shares its key, and otherwise survives (mangled). -/
theorem c10_empty_v1_identity_and_filter :
    (∀ (rows : List Ret.ReturnRow) (strict : Bool),
      Ret.applyV1Exclusion rows [] strict = rows) ∧
    (∀ (rows : List Ret.ReturnRow) (v1 : List Ret.V1ExistingRow) (strict : Bool),
      v1 ≠ [] →
      Ret.applyV1Exclusion rows v1 strict =
        Ret.applyV1Exclusion (rows.filter Ret.rowKept) v1 strict) := by
  constructor
  · intro rows strict
    rfl
  · intro rows v1 strict hv
    unfold Ret.applyV1Exclusion
    rw [if_neg hv, if_neg hv]
    apply flatMap_filter_of_nil
    intro x hx
    unfold Ret.rowKept at hx
    rw [Bool.not_eq_false'] at hx
    exact Ret.emitRow_eq_nil hx

theorem c10_witness :
    (Ret.applyV1Exclusion [⟨"000001", "", "", some 0, "1234567"⟩] [] false =
      [⟨"000001", "", "", some 0, "1234567"⟩]) ∧
    (([(⟨"000002", none, none, "1000000", some "1000009", none⟩ : Ret.V1ExistingRow)] ≠
        ([] : List Ret.V1ExistingRow)) ∧
      Ret.applyV1Exclusion
          [⟨"000001", "", "", some 0, "1234567"⟩, ⟨"000001", "", "", some 7, "1234567"⟩]
          [⟨"000002", none, none, "1000000", some "1000009", none⟩] false =
        Ret.applyV1Exclusion
          ([⟨"000001", "", "", some 0, "1234567"⟩,
            ⟨"000001", "", "", some 7, "1234567"⟩].filter Ret.rowKept)
          [⟨"000002", none, none, "1000000", some "1000009", none⟩] false) :=
  ⟨c10_empty_v1_identity_and_filter.1 [⟨"000001", "", "", some 0, "1234567"⟩] false,
    by decide,
    c10_empty_v1_identity_and_filter.2
      [⟨"000001", "", "", some 0, "1234567"⟩, ⟨"000001", "", "", some 7, "1234567"⟩]
      [⟨"000002", none, none, "1000000", some "1000009", none⟩] false (by decide)⟩
